import Mathlib

/-!
# Verification of the cete table/index engine (`table.go`)

A shallow embedding of the table engine of the repository: versioned
Get/Set/Delete/Update against a sorted key-value primitive, the secondary
index diff engine (`diffIndexes`, `getOneWayDiffs`), the index bucket
maintenance (`addToIndex`, `deleteFromIndex`, `updateIndex`), and the range
cursor (`Between`, `All`).

The repository's own logic (everything in `table.go`) is translated
directly.  External collaborators are modelled from their interface
contract: the sorted KV engine (get / set / delete / compare-and-set /
compare-and-delete, each key carrying a counter bumped by one on every
successful mutation), the value codec (encode/decode modelled as the
identity on already-encoded byte lists, field-path extraction as an opaque
query function), and the reflection of the `Update` handler (modelled by
its reflected shape).  Machine-integer behaviour of the repository's code
is kept: the only 16-bit truncation in `table.go` is the explicit
`uint16(counter[0])` cast, modelled as `% 65536`.
-/

namespace Cete

/-- Raw bytes are modelled as lists of naturals. -/
abbrev Bytes := List Nat

/-- Modelled from the spec: the only failure of the sorted KV primitive's
conditional mutations visible to `table.go` is the CAS-mismatch outcome
(`badger.CasMismatch`). -/
inductive KVErr
  | casMismatch
deriving DecidableEq

/-- Modelled from the spec: a keyspace of the sorted KV primitive, an
association list of (key, value, counter) triples.  Every stored value
carries a counter bumped on every successful mutation of that key. -/
abbrev KV (α : Type) := List (Bytes × α × Nat)

/-- A keyspace holds each key at most once (the KV primitive is a map). -/
def KVDistinct {α : Type} (st : KV α) : Prop := (st.map (·.1)).Nodup

/-- Modelled from the spec: `get(key)`, returning the stored value and its
counter, or nothing when the key is absent (`item.Value() == nil`,
`item.Counter() == 0` on the Go side). -/
def kvLookup {α : Type} : KV α → Bytes → Option (α × Nat)
  | [], _ => none
  | (k', v, c) :: rest, k => if k' = k then some (v, c) else kvLookup rest k

/-- Modelled from the spec: unconditional `set(key, value)`.  A fresh key
receives counter 1; an existing key keeps its slot and its counter is
bumped by exactly 1. -/
def kvSet {α : Type} : KV α → Bytes → α → KV α
  | [], k, v => [(k, v, 1)]
  | (k', v', c) :: rest, k, v =>
      if k' = k then (k, v, c + 1) :: rest else (k', v', c) :: kvSet rest k v

/-- Modelled from the spec: unconditional `delete(key)`, tolerant of an
absent key. -/
def kvDelete {α : Type} : KV α → Bytes → KV α
  | [], _ => []
  | (k', v', c) :: rest, k =>
      if k' = k then rest else (k', v', c) :: kvDelete rest k

/-- Modelled from the spec: `compareAndSet(key, value, expectedCounter)`.
The mutation happens only when the key currently exists with exactly the
expected counter; otherwise the distinct CAS-mismatch failure is returned
(a key that has never been written has no counter, so any CAS on it
mismatches). -/
def kvCompareAndSet {α : Type} : KV α → Bytes → α → Nat → Except KVErr (KV α)
  | [], _, _, _ => .error .casMismatch
  | (k', v', c) :: rest, k, v, e =>
      if k' = k then
        if c = e then .ok ((k, v, c + 1) :: rest) else .error .casMismatch
      else
        match kvCompareAndSet rest k v e with
        | .ok rest' => .ok ((k', v', c) :: rest')
        | .error err => .error err

/-- Modelled from the spec: `compareAndDelete(key, expectedCounter)`,
deleting only when the key exists with exactly the expected counter. -/
def kvCompareAndDelete {α : Type} : KV α → Bytes → Nat → Except KVErr (KV α)
  | [], _, _ => .error .casMismatch
  | (k', v', c) :: rest, k, e =>
      if k' = k then
        if c = e then .ok rest else .error .casMismatch
      else
        match kvCompareAndDelete rest k e with
        | .ok rest' => .ok ((k', v', c) :: rest')
        | .error err => .error err

/-- The error values surfaced by the table engine (`ErrNotFound`,
`ErrCounterChanged`, `ErrEndOfRange`, the `errors.New` messages of the
`Update` handler validation).  `Update` modifier-abort errors are arbitrary
error values; they are drawn from this same type and returned verbatim. -/
inductive CErr
  | notFound
  | counterChanged
  | endOfRange
  | handlerErr (msg : String)
  | abortErr (tag : Nat)
deriving DecidableEq

section KVLemmas

variable {α : Type}

theorem kvLookup_nil (k : Bytes) : kvLookup ([] : KV α) k = none := rfl

theorem kvLookup_cons (k' : Bytes) (v : α) (c : Nat) (rest : KV α) (k : Bytes) :
    kvLookup ((k', v, c) :: rest) k =
      if k' = k then some (v, c) else kvLookup rest k := rfl

theorem kvSet_nil (k : Bytes) (v : α) : kvSet ([] : KV α) k v = [(k, v, 1)] := rfl

theorem kvSet_cons (k' : Bytes) (v' : α) (c : Nat) (rest : KV α) (k : Bytes) (v : α) :
    kvSet ((k', v', c) :: rest) k v =
      if k' = k then (k, v, c + 1) :: rest else (k', v', c) :: kvSet rest k v := rfl

theorem kvDelete_nil (k : Bytes) : kvDelete ([] : KV α) k = [] := rfl

theorem kvDelete_cons (k' : Bytes) (v' : α) (c : Nat) (rest : KV α) (k : Bytes) :
    kvDelete ((k', v', c) :: rest) k =
      if k' = k then rest else (k', v', c) :: kvDelete rest k := rfl

theorem kvCompareAndSet_nil (k : Bytes) (v : α) (e : Nat) :
    kvCompareAndSet ([] : KV α) k v e = .error .casMismatch := rfl

theorem kvCompareAndSet_cons_self (k : Bytes) (v' : α) (c : Nat) (rest : KV α)
    (v : α) (e : Nat) :
    kvCompareAndSet ((k, v', c) :: rest) k v e =
      if c = e then .ok ((k, v, c + 1) :: rest) else .error .casMismatch := by
  rw [kvCompareAndSet, if_pos rfl]

theorem kvCompareAndSet_cons_ne_ok (k' : Bytes) (v' : α) (c : Nat) (rest : KV α)
    (k : Bytes) (v : α) (e : Nat) (r' : KV α) (h : ¬ k' = k)
    (hr : kvCompareAndSet rest k v e = .ok r') :
    kvCompareAndSet ((k', v', c) :: rest) k v e = .ok ((k', v', c) :: r') := by
  rw [kvCompareAndSet, if_neg h, hr]

theorem kvCompareAndSet_cons_ne_err (k' : Bytes) (v' : α) (c : Nat) (rest : KV α)
    (k : Bytes) (v : α) (e : Nat) (err : KVErr) (h : ¬ k' = k)
    (hr : kvCompareAndSet rest k v e = .error err) :
    kvCompareAndSet ((k', v', c) :: rest) k v e = .error err := by
  rw [kvCompareAndSet, if_neg h, hr]

theorem kvCompareAndDelete_nil (k : Bytes) (e : Nat) :
    kvCompareAndDelete ([] : KV α) k e = .error .casMismatch := rfl

theorem kvCompareAndDelete_cons_self (k : Bytes) (v' : α) (c : Nat) (rest : KV α)
    (e : Nat) :
    kvCompareAndDelete ((k, v', c) :: rest) k e =
      if c = e then .ok rest else .error .casMismatch := by
  rw [kvCompareAndDelete, if_pos rfl]

theorem kvCompareAndDelete_cons_ne_ok (k' : Bytes) (v' : α) (c : Nat) (rest : KV α)
    (k : Bytes) (e : Nat) (r' : KV α) (h : ¬ k' = k)
    (hr : kvCompareAndDelete rest k e = .ok r') :
    kvCompareAndDelete ((k', v', c) :: rest) k e = .ok ((k', v', c) :: r') := by
  rw [kvCompareAndDelete, if_neg h, hr]

theorem kvCompareAndDelete_cons_ne_err (k' : Bytes) (v' : α) (c : Nat) (rest : KV α)
    (k : Bytes) (e : Nat) (err : KVErr) (h : ¬ k' = k)
    (hr : kvCompareAndDelete rest k e = .error err) :
    kvCompareAndDelete ((k', v', c) :: rest) k e = .error err := by
  rw [kvCompareAndDelete, if_neg h, hr]

theorem kvLookup_notMem (st : KV α) (k : Bytes)
    (h : k ∉ st.map (·.1)) : kvLookup st k = none := by
  induction st with
  | nil => rfl
  | cons hd rest ih =>
      obtain ⟨k', v', c'⟩ := hd
      simp only [List.map_cons, List.mem_cons, not_or] at h
      rw [kvLookup_cons, if_neg (fun hh => h.1 hh.symm)]
      exact ih h.2

theorem kvLookup_kvSet_self (st : KV α) (k : Bytes) (v : α) :
    ∃ c, kvLookup (kvSet st k v) k = some (v, c) := by
  induction st with
  | nil => exact ⟨1, by rw [kvSet_nil, kvLookup_cons, if_pos rfl]⟩
  | cons hd rest ih =>
      obtain ⟨k', v', c'⟩ := hd
      by_cases h : k' = k
      · exact ⟨c' + 1, by rw [kvSet_cons, if_pos h, kvLookup_cons, if_pos rfl]⟩
      · obtain ⟨c, hc⟩ := ih
        exact ⟨c, by rw [kvSet_cons, if_neg h, kvLookup_cons, if_neg h, hc]⟩

theorem kvLookup_kvSet_ne (st : KV α) (k k' : Bytes) (v : α) (h : k' ≠ k) :
    kvLookup (kvSet st k v) k' = kvLookup st k' := by
  induction st with
  | nil =>
      rw [kvSet_nil, kvLookup_cons, if_neg (fun hh => h hh.symm), kvLookup_nil]
  | cons hd rest ih =>
      obtain ⟨k'', v'', c''⟩ := hd
      by_cases hk : k'' = k
      · have hne1 : ¬ k = k' := fun hh => h hh.symm
        have hne2 : ¬ k'' = k' := fun hh => h (hh ▸ hk)
        rw [kvSet_cons, if_pos hk, kvLookup_cons, if_neg hne1,
          kvLookup_cons, if_neg hne2]
      · by_cases hk' : k'' = k'
        · rw [kvSet_cons, if_neg hk, kvLookup_cons, if_pos hk',
            kvLookup_cons, if_pos hk']
        · rw [kvSet_cons, if_neg hk, kvLookup_cons, if_neg hk',
            kvLookup_cons, if_neg hk', ih]

theorem kvSet_keys_subset (l : KV α) (k : Bytes) (v : α) (x : Bytes)
    (hx : x ∈ (kvSet l k v).map (·.1)) : x ∈ l.map (·.1) ∨ x = k := by
  induction l with
  | nil =>
      rw [kvSet_nil] at hx
      simp only [List.map_cons, List.map_nil, List.mem_singleton] at hx
      exact Or.inr hx
  | cons hd rest ih =>
      obtain ⟨a, b, c⟩ := hd
      by_cases ha : a = k
      · rw [kvSet_cons, if_pos ha] at hx
        simp only [List.map_cons, List.mem_cons] at hx
        simp only [List.map_cons, List.mem_cons]
        rcases hx with hx | hx
        · exact Or.inr hx
        · exact Or.inl (Or.inr hx)
      · rw [kvSet_cons, if_neg ha] at hx
        simp only [List.map_cons, List.mem_cons] at hx
        simp only [List.map_cons, List.mem_cons]
        rcases hx with hx | hx
        · exact Or.inl (Or.inl hx)
        · rcases ih hx with hx' | hx'
          · exact Or.inl (Or.inr hx')
          · exact Or.inr hx'

theorem kvSet_distinct (st : KV α) (k : Bytes) (v : α) (h : KVDistinct st) :
    KVDistinct (kvSet st k v) := by
  induction st with
  | nil =>
      rw [KVDistinct, kvSet_nil]
      simp
  | cons hd rest ih =>
      obtain ⟨k', v', c'⟩ := hd
      simp only [KVDistinct, List.map_cons, List.nodup_cons] at h
      by_cases hk : k' = k
      · rw [KVDistinct, kvSet_cons, if_pos hk]
        simp only [List.map_cons, List.nodup_cons]
        exact hk ▸ h
      · rw [KVDistinct, kvSet_cons, if_neg hk]
        simp only [List.map_cons, List.nodup_cons]
        exact ⟨fun hmem => (kvSet_keys_subset rest k v k' hmem).elim h.1 hk,
          ih h.2⟩

theorem kvDelete_keys_subset (l : KV α) (k x : Bytes)
    (hx : x ∈ (kvDelete l k).map (·.1)) : x ∈ l.map (·.1) := by
  induction l with
  | nil =>
      rw [kvDelete_nil] at hx
      exact hx
  | cons hd rest ih =>
      obtain ⟨a, b, c⟩ := hd
      simp only [List.map_cons, List.mem_cons]
      by_cases ha : a = k
      · rw [kvDelete_cons, if_pos ha] at hx
        exact Or.inr hx
      · rw [kvDelete_cons, if_neg ha] at hx
        simp only [List.map_cons, List.mem_cons] at hx
        rcases hx with hx | hx
        · exact Or.inl hx
        · exact Or.inr (ih hx)

theorem kvLookup_kvDelete (st : KV α) (k k' : Bytes) (h : KVDistinct st) :
    kvLookup (kvDelete st k) k' = if k' = k then none else kvLookup st k' := by
  induction st with
  | nil =>
      rw [kvDelete_nil, kvLookup_nil]
      simp
  | cons hd rest ih =>
      obtain ⟨k'', v'', c''⟩ := hd
      simp only [KVDistinct, List.map_cons, List.nodup_cons] at h
      by_cases hk : k'' = k
      · rw [kvDelete_cons, if_pos hk]
        by_cases hk' : k' = k
        · rw [if_pos hk']
          apply kvLookup_notMem
          intro hmem
          have heq : k' = k'' := hk'.trans hk.symm
          exact h.1 (heq ▸ hmem)
        · rw [if_neg hk', kvLookup_cons,
            if_neg (show ¬ k'' = k' from fun hh => hk' (hh ▸ hk))]
      · rw [kvDelete_cons, if_neg hk]
        by_cases hk' : k'' = k'
        · have hne : ¬ k' = k := fun hh => hk (hk'.trans hh)
          rw [if_neg hne, kvLookup_cons, if_pos hk', kvLookup_cons, if_pos hk']
        · rw [kvLookup_cons, if_neg hk', ih h.2, kvLookup_cons, if_neg hk']

theorem kvDelete_distinct (st : KV α) (k : Bytes) (h : KVDistinct st) :
    KVDistinct (kvDelete st k) := by
  induction st with
  | nil => exact h
  | cons hd rest ih =>
      obtain ⟨k', v', c'⟩ := hd
      simp only [KVDistinct, List.map_cons, List.nodup_cons] at h
      by_cases hk : k' = k
      · rw [KVDistinct, kvDelete_cons, if_pos hk]
        exact h.2
      · rw [KVDistinct, kvDelete_cons, if_neg hk]
        simp only [List.map_cons, List.nodup_cons]
        exact ⟨fun hmem => h.1 (kvDelete_keys_subset rest k k' hmem), ih h.2⟩

theorem kvCompareAndSet_keys (l l' : KV α) (k : Bytes) (v : α) (e : Nat)
    (hcas : kvCompareAndSet l k v e = .ok l') :
    l'.map (·.1) = l.map (·.1) := by
  induction l generalizing l' with
  | nil =>
      rw [kvCompareAndSet_nil] at hcas
      simp at hcas
  | cons hd rest ih =>
      obtain ⟨a, b, cc⟩ := hd
      by_cases ha : a = k
      · subst ha
        rw [kvCompareAndSet_cons_self] at hcas
        by_cases hcc : cc = e
        · rw [if_pos hcc] at hcas
          injection hcas with hl
          subst hl
          simp
        · rw [if_neg hcc] at hcas
          simp at hcas
      · cases hc2 : kvCompareAndSet rest k v e with
        | ok r' =>
            rw [kvCompareAndSet_cons_ne_ok a b cc rest k v e r' ha hc2] at hcas
            injection hcas with hl
            subst hl
            simp only [List.map_cons]
            rw [ih r' hc2]
        | error err =>
            rw [kvCompareAndSet_cons_ne_err a b cc rest k v e err ha hc2] at hcas
            simp at hcas

theorem kvCompareAndSet_of_lookup (st : KV α) (k : Bytes) (w : α) (c : Nat)
    (v : α) (h : kvLookup st k = some (w, c)) :
    ∃ st', kvCompareAndSet st k v c = .ok st' ∧
      (∀ k', kvLookup st' k' =
        if k' = k then some (v, c + 1) else kvLookup st k') := by
  induction st with
  | nil => rw [kvLookup_nil] at h; cases h
  | cons hd rest ih =>
      obtain ⟨k'', v'', c''⟩ := hd
      by_cases hk : k'' = k
      · subst hk
        rw [kvLookup_cons, if_pos rfl] at h
        injection h with h'
        have hw : v'' = w := congrArg Prod.fst h'
        have hc : c'' = c := congrArg Prod.snd h'
        refine ⟨(k'', v, c'' + 1) :: rest, ?_, ?_⟩
        · rw [kvCompareAndSet_cons_self, if_pos hc]
        · intro k'
          by_cases hk' : k'' = k'
          · rw [kvLookup_cons, if_pos hk', if_pos hk'.symm, hc]
          · have hne : ¬ k' = k'' := fun hh => hk' hh.symm
            rw [kvLookup_cons, if_neg hk', if_neg hne, kvLookup_cons, if_neg hk']
      · rw [kvLookup_cons, if_neg hk] at h
        obtain ⟨st', hst', hlook⟩ := ih h
        refine ⟨(k'', v'', c'') :: st',
          kvCompareAndSet_cons_ne_ok k'' v'' c'' rest k v c st' hk hst', ?_⟩
        intro k'
        by_cases hk' : k'' = k'
        · have hne : ¬ k' = k := fun hh => hk (hk'.trans hh)
          rw [kvLookup_cons, if_pos hk', if_neg hne, kvLookup_cons, if_pos hk']
        · rw [kvLookup_cons, if_neg hk', hlook k', kvLookup_cons, if_neg hk']

theorem kvCompareAndSet_distinct (l l' : KV α) (k : Bytes) (v : α) (e : Nat)
    (hcas : kvCompareAndSet l k v e = .ok l') (h : KVDistinct l) :
    KVDistinct l' := by
  rw [KVDistinct, kvCompareAndSet_keys l l' k v e hcas]
  exact h

theorem kvCompareAndDelete_keys_subset (l l' : KV α) (k : Bytes) (e : Nat)
    (hcas : kvCompareAndDelete l k e = .ok l') :
    ∀ x, x ∈ l'.map (·.1) → x ∈ l.map (·.1) := by
  induction l generalizing l' with
  | nil =>
      rw [kvCompareAndDelete_nil] at hcas
      simp at hcas
  | cons hd rest ih =>
      obtain ⟨a, b, cc⟩ := hd
      intro x
      by_cases ha : a = k
      · subst ha
        rw [kvCompareAndDelete_cons_self] at hcas
        by_cases hcc : cc = e
        · rw [if_pos hcc] at hcas
          injection hcas with hl
          subst hl
          simp only [List.map_cons, List.mem_cons]
          exact fun hx => Or.inr hx
        · rw [if_neg hcc] at hcas
          simp at hcas
      · cases hc2 : kvCompareAndDelete rest k e with
        | ok r' =>
            rw [kvCompareAndDelete_cons_ne_ok a b cc rest k e r' ha hc2] at hcas
            injection hcas with hl
            subst hl
            simp only [List.map_cons, List.mem_cons]
            rintro (hx | hx)
            · exact Or.inl hx
            · exact Or.inr (ih r' hc2 x hx)
        | error err =>
            rw [kvCompareAndDelete_cons_ne_err a b cc rest k e err ha hc2] at hcas
            simp at hcas

theorem kvCompareAndDelete_of_lookup (st : KV α) (k : Bytes) (w : α) (c : Nat)
    (h : kvLookup st k = some (w, c)) (hdist : KVDistinct st) :
    ∃ st', kvCompareAndDelete st k c = .ok st' ∧ KVDistinct st' ∧
      (∀ k', kvLookup st' k' = if k' = k then none else kvLookup st k') := by
  induction st with
  | nil => rw [kvLookup_nil] at h; cases h
  | cons hd rest ih =>
      obtain ⟨k'', v'', c''⟩ := hd
      simp only [KVDistinct, List.map_cons, List.nodup_cons] at hdist
      by_cases hk : k'' = k
      · subst hk
        rw [kvLookup_cons, if_pos rfl] at h
        injection h with h'
        have hc : c'' = c := congrArg Prod.snd h'
        refine ⟨rest, ?_, hdist.2, ?_⟩
        · rw [kvCompareAndDelete_cons_self, if_pos hc]
        · intro k'
          by_cases hk' : k' = k''
          · rw [if_pos hk']
            exact kvLookup_notMem rest k' (hk' ▸ hdist.1)
          · have hne : ¬ k'' = k' := fun hh => hk' hh.symm
            rw [if_neg hk', kvLookup_cons, if_neg hne]
      · rw [kvLookup_cons, if_neg hk] at h
        obtain ⟨st', hst', hdist', hlook⟩ := ih h hdist.2
        refine ⟨(k'', v'', c'') :: st',
          kvCompareAndDelete_cons_ne_ok k'' v'' c'' rest k c st' hk hst', ?_, ?_⟩
        · simp only [KVDistinct, List.map_cons, List.nodup_cons]
          exact ⟨fun hmem =>
            hdist.1 (kvCompareAndDelete_keys_subset rest st' k c hst' k'' hmem),
            hdist'⟩
        · intro k'
          by_cases hk' : k'' = k'
          · have hne : ¬ k' = k := fun hh => hk (hk'.trans hh)
            rw [if_neg hne, kvLookup_cons, if_pos hk', kvLookup_cons, if_pos hk']
          · rw [kvLookup_cons, if_neg hk', hlook k', kvLookup_cons, if_neg hk']

end KVLemmas
/-! ## The table engine (`table.go`) -/

/-- The environment of a table: its declared indexes and the external value
codec.  `indexes` models the table's index map as a list of index names
(`t.indexes`); `query` models `msgpack.NewDecoder(bytes.NewReader(b)).Query(name)`
(Modelled from the spec: the codec extracts, from raw encoded bytes, the
sequence of raw values reachable at a named field path, or nothing); `vtb`
models `valueToBytes`, the canonical byte form of an extracted value
(Modelled from the spec: repository code outside `table.go`; canonical,
compared by raw byte equality). -/
structure Env where
  indexes : List String
  query : String → Bytes → Option (List Bytes)
  vtb : Bytes → Bytes

/-- The state owned by a `Table`: its primary keyspace `data` (encoded
document bytes per primary key) and, for each index name, that index's own
keyspace `idx` mapping a canonical index key to the stored bucket (a list
of primary keys).  Bucket lists are stored decoded: the msgpack
encode/decode round-trip of a `[]string` is modelled as the identity, so
the `corrupt index` unmarshal-failure branches of `table.go` cannot fire in
this embedding. -/
structure Table where
  data : KV Bytes
  idx : String → KV (List Bytes)

/-- The empty table: no documents, every index bucket store empty. -/
def Table.empty : Table := ⟨[], fun _ => []⟩

/-- The raw extraction step of `diffIndexes` for one side:
`rawValues, _ := msgpack.NewDecoder(bytes.NewReader(b)).Query(indexName)`
followed by `if rawValues == nil || len(b) == 0 { rawValues = []interface{}{} }`
(a nil `[]byte` and an empty one both have length 0). -/
def extractRaw (env : Env) (indexName : String) (b : Bytes) : List Bytes :=
  match env.query indexName b with
  | none => []
  | some l => if b.length = 0 then [] else l

/-- The canonical index-key values of one side of `diffIndexes`:
`values[i] = valueToBytes(rawValues[i])`. -/
def extractVals (env : Env) (indexName : String) (b : Bytes) : List Bytes :=
  (extractRaw env indexName b).map env.vtb

/-- `diffEntry` from `table.go`: one (index name, canonical index key)
pair. -/
structure diffEntry where
  indexName : String
  indexKey : Bytes
deriving DecidableEq

/-- `getOneWayDiffs(indexName, a, b)` from `table.go`: one entry per element
of `a` that does not occur (by `bytes.Equal`) anywhere in `b`, in the order
of `a`. -/
def getOneWayDiffs (indexName : String) (a b : List Bytes) : List diffEntry :=
  match a with
  | [] => []
  | aa :: rest =>
      if aa ∈ b then getOneWayDiffs indexName rest b
      else ⟨indexName, aa⟩ :: getOneWayDiffs indexName rest b

/-- The per-index accumulation of `diffIndexes` over the list of declared
indexes (the Go `for indexName := range t.indexes` loop, with a fixed
iteration order): returns (additions, removals). -/
def diffIndexesGo (env : Env) (old new : Bytes) : List String → List diffEntry × List diffEntry
  | [] => ([], [])
  | indexName :: rest =>
      let oldValues := extractVals env indexName old
      let newValues := extractVals env indexName new
      let acc := diffIndexesGo env old new rest
      (getOneWayDiffs indexName newValues oldValues ++ acc.1,
       getOneWayDiffs indexName oldValues newValues ++ acc.2)

/-- `diffIndexes(old, new)` from `table.go`: additions are values present in
the new sequence but absent from the old, removals the reverse, gathered
over every declared index. -/
def diffIndexes (env : Env) (old new : Bytes) : List diffEntry × List diffEntry :=
  diffIndexesGo env old new env.indexes

/-- `deleteFromIndex(indexKey, key)` from `table.go`, acting on one index's
keyspace.  An absent bucket or a bucket not containing `key` is tolerated
(`corrupt index` warning, nil error).  A found key is removed (first
occurrence, as the Go loop breaks); an emptied bucket is compare-and-deleted,
a shortened one compare-and-set.  In this sequential embedding the CAS is
performed against the counter just read, so the `badger.CasMismatch` retry
branch of the Go loop is unreachable; it is mapped to returning the store
unchanged. -/
def deleteFromIndex (st : KV (List Bytes)) (indexKey : Bytes) (key : Bytes) :
    Except CErr Unit × KV (List Bytes) :=
  match kvLookup st indexKey with
  | none => (.ok (), st)
  | some (list, c) =>
      if key ∈ list then
        if list.erase key = [] then
          match kvCompareAndDelete st indexKey c with
          | .ok st' => (.ok (), st')
          | .error .casMismatch => (.ok (), st)
        else
          match kvCompareAndSet st indexKey (list.erase key) c with
          | .ok st' => (.ok (), st')
          | .error .casMismatch => (.ok (), st)
      else (.ok (), st)

/-- `addToIndex(indexKey, key)` from `table.go`, acting on one index's
keyspace.  An existing bucket already containing `key` is a no-op; an
existing bucket is extended by appending `key` and compare-and-set with the
observed counter; an absent bucket is written unconditionally as the
single-element list.  As in `deleteFromIndex`, the CAS retry branch is
unreachable sequentially. -/
def addToIndex (st : KV (List Bytes)) (indexKey : Bytes) (key : Bytes) :
    Except CErr Unit × KV (List Bytes) :=
  match kvLookup st indexKey with
  | some (list, c) =>
      if key ∈ list then (.ok (), st)
      else
        match kvCompareAndSet st indexKey (list ++ [key]) c with
        | .ok st' => (.ok (), st')
        | .error .casMismatch => (.ok (), st)
  | none => (.ok (), kvSet st indexKey [key])

/-- Apply one index-store operation `f` (deletion or addition of `key`) for
every diff entry in order, each entry acting on its own index's keyspace
(the two `for` loops of `updateIndex`; per-entry errors are logged by the
Go code and do not stop the loop). -/
def applyEntries (f : KV (List Bytes) → Bytes → Bytes → Except CErr Unit × KV (List Bytes))
    (t : Table) (key : Bytes) : List diffEntry → Table
  | [] => t
  | e :: rest =>
      let st' := (f (t.idx e.indexName) e.indexKey key).2
      applyEntries f
        { t with idx := fun n => if n = e.indexName then st' else t.idx n }
        key rest

/-- `updateIndex(key, old, new)` from `table.go`: compute the diff, apply
every removal via `deleteFromIndex`, then every addition via `addToIndex`.
Its `lastError` return value is discarded by both callers (`Set`, `Delete`),
so the embedding returns the state only. -/
def updateIndex (env : Env) (t : Table) (key : Bytes) (old new : Bytes) : Table :=
  let diffs := diffIndexes env old new
  let t' := applyEntries deleteFromIndex t key diffs.2
  applyEntries addToIndex t' key diffs.1

/-- `Get(key)` from `table.go`: `ErrNotFound` when the document is absent;
otherwise the decoded value and its counter (decoding into the caller's
shape is modelled as the identity on the stored bytes). -/
def Table.Get (t : Table) (key : Bytes) : Except CErr (Bytes × Nat) :=
  match kvLookup t.data key with
  | none => .error .notFound
  | some (v, c) => .ok (v, c)

/-- `Set(key, value, counter...)` from `table.go`.  The prior item is read
first.  With a supplied counter, `item.Counter() != uint16(counter[0])`
fails with `ErrCounterChanged` (the supplied Go `int` is truncated to 16
bits; an absent item reads counter 0), then the write is a compare-and-set
with the truncated counter, `badger.CasMismatch` mapped to
`ErrCounterChanged`; without one it is an unconditional set.  On success
`updateIndex(key, oldValue, newValue)` runs (its error is not returned).
`msgpack.Marshal` is modelled as the identity on the supplied encoded
value. -/
def Table.Set (env : Env) (t : Table) (key : Bytes) (value : Bytes)
    (counter : Option Nat := none) : Except CErr Unit × Table :=
  match counter, kvLookup t.data key with
  | some n, item =>
      if (item.map Prod.snd).getD 0 ≠ n % 65536 then (.error .counterChanged, t)
      else
        match kvCompareAndSet t.data key value (n % 65536) with
        | .error .casMismatch => (.error .counterChanged, t)
        | .ok data' =>
            (.ok (), updateIndex env { t with data := data' } key
              ((item.map Prod.fst).getD []) value)
  | none, item =>
      (.ok (), updateIndex env { t with data := kvSet t.data key value } key
        ((item.map Prod.fst).getD []) value)

/-- `Delete(key, counter...)` from `table.go`.  An absent document is a
no-op success.  With a supplied counter, `int(item.Counter()) != counter[0]`
fails with `ErrCounterChanged` (exact integer comparison), then the delete
is a compare-and-delete with the truncated counter; without one it is
unconditional.  On success `updateIndex(key, oldValue, nil)` strips the key
from its buckets. -/
def Table.Delete (env : Env) (t : Table) (key : Bytes)
    (counter : Option Nat := none) : Except CErr Unit × Table :=
  match kvLookup t.data key with
  | none => (.ok (), t)
  | some (oldVal, c) =>
      match counter with
      | some n =>
          if c ≠ n then (.error .counterChanged, t)
          else
            match kvCompareAndDelete t.data key (n % 65536) with
            | .error .casMismatch => (.error .counterChanged, t)
            | .ok data' =>
                (.ok (), updateIndex env { t with data := data' } key oldVal [])
      | none =>
          (.ok (), updateIndex env { t with data := kvDelete t.data key } key oldVal [])

/-- The reflected shape of an `Update` handler argument, modelling the
`reflect` inspection in `table.go` lines 400-417: whether the value is a
function, its numbers of inputs and outputs, whether the last output
implements `error`, and (for a valid shape) the callable itself, a pure
map from the decoded document to the new value and an optional abort
error. -/
structure HandlerShape where
  isFunc : Bool
  numIn : Nat
  numOut : Nat
  errOut : Bool
  fn : Bytes → Bytes × Option CErr

/-- The retry loop of `Update`: read the current (value, counter) with
`Get`, call the handler, return its abort error verbatim if non-nil,
otherwise `Set` with the observed counter, retrying the whole loop while
that `Set` fails with `ErrCounterChanged`.  The Go loop is unbounded; the
embedding spends one unit of fuel per iteration and returns `none` when
fuel runs out. -/
def updateLoop (env : Env) (key : Bytes) (h : HandlerShape) :
    Nat → Table → Option (Except CErr Unit × Table)
  | 0, _ => none
  | fuel + 1, t =>
      match t.Get key with
      | .error e => some (.error e, t)
      | .ok (doc, c) =>
          let res := h.fn doc
          match res.2 with
          | some e => some (.error e, t)
          | none =>
              let r := Table.Set env t key res.1 (some c)
              match r.1 with
              | .error .counterChanged => updateLoop env key h fuel r.2
              | other => some (other, r.2)

/-- `Update(key, handler)` from `table.go`: the handler's reflected shape is
validated first (must be a function, 1 input, 2 outputs, last output an
error), each failure returning the corresponding `errors.New` message
before any store access; a valid handler enters the retry loop. -/
def Table.Update (env : Env) (t : Table) (key : Bytes) (h : HandlerShape)
    (fuel : Nat) : Option (Except CErr Unit × Table) :=
  if h.isFunc = false then
    some (.error (.handlerErr "cete: handler must be a function"), t)
  else if h.numIn ≠ 1 then
    some (.error (.handlerErr "cete: handler must have 1 input argument"), t)
  else if h.numOut ≠ 2 then
    some (.error (.handlerErr "cete: handler must have 2 return values"), t)
  else if h.errOut = false then
    some (.error (.handlerErr "cete: handler must have error as last return value"), t)
  else updateLoop env key h fuel t

/-! ## The range cursor (`Between`, `All`) -/

/-- A range bound: `MinBounds`, `MaxBounds` (the sentinel values of the
repository, compared by identity in `Between`), or an ordinary key value. -/
inductive Bound
  | minB
  | maxB
  | val (b : Bytes)
deriving DecidableEq

/-- `bytes.Compare`: lexicographic comparison of byte strings. -/
def bcmp : Bytes → Bytes → Ordering
  | [], [] => .eq
  | [], _ :: _ => .lt
  | _ :: _, [] => .gt
  | a :: as, b :: bs => if a < b then .lt else if b < a then .gt else bcmp as bs

/-- `valueToBytes` applied to a `Between` bound (Modelled from the spec:
repository code outside `table.go`; a key value canonicalizes to its own
bytes).  The byte form of a sentinel is never consulted on the paths the
sentinel selects. -/
def vtbBound : Bound → Bytes
  | .val b => b
  | _ => []

/-- Insert one (key, value, counter) snapshot into a list sorted ascending
by key. -/
def insertByKey (x : Bytes × Bytes × Nat) :
    List (Bytes × Bytes × Nat) → List (Bytes × Bytes × Nat)
  | [] => [x]
  | y :: rest =>
      if bcmp x.1 y.1 = .gt then y :: insertByKey x rest else x :: y :: rest

/-- Modelled from the spec: the engine iterates a keyspace in ascending raw
byte order of the keys; this sorts the association-list snapshot. -/
def sortByKey : List (Bytes × Bytes × Nat) → List (Bytes × Bytes × Nat)
  | [] => []
  | x :: rest => insertByKey x (sortByKey rest)

/-- Modelled from the spec: the engine iterator after construction, a list
of the remaining (key, value, counter) snapshots in iteration order
(ascending, or descending when `reverse`). -/
def iterInit (t : Table) (reverse : Bool) : List (Bytes × Bytes × Nat) :=
  let sorted := sortByKey t.data
  if reverse then sorted.reverse else sorted

/-- Modelled from the spec: `it.Seek(k)` in forward mode positions the
iterator at the first key not below `k`. -/
def seekFwd (k : Bytes) (l : List (Bytes × Bytes × Nat)) :
    List (Bytes × Bytes × Nat) :=
  l.dropWhile (fun p => bcmp p.1 k = .lt)

/-- Modelled from the spec: `it.Seek(k)` in reverse mode positions the
iterator at the last key not above `k`. -/
def seekRev (k : Bytes) (l : List (Bytes × Bytes × Nat)) :
    List (Bytes × Bytes × Nat) :=
  l.dropWhile (fun p => bcmp p.1 k = .gt)

/-- The state captured by the closure `Between` hands to `newRange`: the
direction, the two bounds with their byte forms, and the engine iterator.
(Modelled from the spec: `newRange` wraps the closure into the lazy Range;
the Range's yields are exactly the closure's successive results.) -/
structure RangeState where
  shouldReverse : Bool
  lowerIsMin : Bool
  upperIsMax : Bool
  lowerBytes : Bytes
  upperBytes : Bytes
  it : List (Bytes × Bytes × Nat)
deriving DecidableEq

/-- `Between(lower, upper, reverse...)` from `table.go`: open an iterator in
the scan direction; forward seeks to `lower` (rewinding when `lower` is the
`MinBounds` sentinel), reverse seeks to `upper` (rewinding when `upper` is
`MaxBounds`). -/
def Table.Between (t : Table) (lower upper : Bound) (reverse : Bool := false) :
    RangeState :=
  let shouldReverse := reverse
  let upperBytes := vtbBound upper
  let lowerBytes := vtbBound lower
  let base := iterInit t shouldReverse
  let it :=
    if shouldReverse = false then
      if lower = .minB then base else seekFwd lowerBytes base
    else
      if upper = .maxB then base else seekRev upperBytes base
  ⟨shouldReverse, lower = .minB, upper = .maxB, lowerBytes, upperBytes, it⟩

/-- One pull of the closure `Between` passes to `newRange`: when the
iterator is valid, a key beyond the bounded end yields `ErrEndOfRange`
without advancing (terminal); otherwise the current snapshot is yielded and
the iterator advanced; an exhausted iterator yields `ErrEndOfRange`. -/
def rangeNext (r : RangeState) : Except CErr (Bytes × Bytes × Nat) × RangeState :=
  match r.it with
  | [] => (.error .endOfRange, r)
  | (k, v, c) :: rest =>
      if r.shouldReverse = false ∧ r.upperIsMax = false ∧ bcmp k r.upperBytes = .gt then
        (.error .endOfRange, r)
      else if r.shouldReverse = true ∧ r.lowerIsMin = false ∧ bcmp k r.lowerBytes = .lt then
        (.error .endOfRange, r)
      else
        (.ok (k, v, c), { r with it := rest })

/-- `All(reverse...)` from `table.go`: shorthand for
`Between(MinBounds, MaxBounds, reverse...)`. -/
def Table.All (t : Table) (reverse : Bool := false) : RangeState :=
  t.Between .minB .maxB reverse

/-- The first `n` results pulled from a range. -/
def rangePulls : Nat → RangeState → List (Except CErr (Bytes × Bytes × Nat))
  | 0, _ => []
  | n + 1, r =>
      let p := rangeNext r
      p.1 :: rangePulls n p.2

/-! ## Index-store characterizations -/

/-- The bucket stored at index key `v` in one index's keyspace, the empty
list when the entry is absent. -/
def bucketList (st : KV (List Bytes)) (v : Bytes) : List Bytes :=
  ((kvLookup st v).map Prod.fst).getD []

theorem extractVals_nil (env : Env) (i : String) : extractVals env i [] = [] := by
  unfold extractVals extractRaw
  cases h : env.query i [] with
  | none => rfl
  | some l => simp

theorem kvCompareAndSet_absent {α : Type} (st : KV α) (k : Bytes) (v : α)
    (e : Nat) (h : kvLookup st k = none) :
    kvCompareAndSet st k v e = .error .casMismatch := by
  induction st with
  | nil => rfl
  | cons hd rest ih =>
      obtain ⟨k', v', c'⟩ := hd
      by_cases hk : k' = k
      · rw [kvLookup_cons, if_pos hk] at h
        cases h
      · rw [kvLookup_cons, if_neg hk] at h
        exact kvCompareAndSet_cons_ne_err k' v' c' rest k v e .casMismatch hk (ih h)

theorem kvCompareAndDelete_wrong {α : Type} (st : KV α) (k : Bytes) (w : α)
    (c e : Nat) (h : kvLookup st k = some (w, c)) (hne : c ≠ e) :
    kvCompareAndDelete st k e = .error .casMismatch := by
  induction st with
  | nil => rfl
  | cons hd rest ih =>
      obtain ⟨k', v', c'⟩ := hd
      by_cases hk : k' = k
      · subst hk
        rw [kvLookup_cons, if_pos rfl] at h
        injection h with h'
        have hc : c' = c := congrArg Prod.snd h'
        rw [kvCompareAndDelete_cons_self, if_neg (hc ▸ hne)]
      · rw [kvLookup_cons, if_neg hk] at h
        exact kvCompareAndDelete_cons_ne_err k' v' c' rest k e .casMismatch hk (ih h)

theorem bucketList_lookup_none (st : KV (List Bytes)) (v : Bytes)
    (h : kvLookup st v = none) : bucketList st v = [] := by
  unfold bucketList
  rw [h]
  rfl

theorem bucketList_lookup_some (st : KV (List Bytes)) (v : Bytes)
    (l : List Bytes) (c : Nat) (h : kvLookup st v = some (l, c)) :
    bucketList st v = l := by
  unfold bucketList
  rw [h]
  rfl

/-- The effect of `deleteFromIndex` on the buckets of one index keyspace:
the bucket at `indexKey` loses the first occurrence of `key`, every other
bucket is untouched, and key-distinctness of the store is preserved. -/
theorem bucket_deleteFromIndex (st : KV (List Bytes)) (ikey key : Bytes)
    (hdist : KVDistinct st) :
    KVDistinct (deleteFromIndex st ikey key).2 ∧
    ∀ v, bucketList (deleteFromIndex st ikey key).2 v =
      if v = ikey then (bucketList st ikey).erase key else bucketList st v := by
  cases hlook : kvLookup st ikey with
  | none =>
      have hres : deleteFromIndex st ikey key = (.ok (), st) := by
        unfold deleteFromIndex
        rw [hlook]
      rw [hres]
      refine ⟨hdist, ?_⟩
      intro v
      by_cases hv : v = ikey
      · subst hv
        rw [if_pos rfl, bucketList_lookup_none st v hlook, List.erase_nil]
      · rw [if_neg hv]
  | some pair =>
      obtain ⟨list, c⟩ := pair
      have hbl : bucketList st ikey = list := bucketList_lookup_some st ikey list c hlook
      by_cases hmem : key ∈ list
      · by_cases hnil : list.erase key = []
        · obtain ⟨st', hcad, hdist', hchar⟩ :=
            kvCompareAndDelete_of_lookup st ikey list c hlook hdist
          have hres : deleteFromIndex st ikey key = (.ok (), st') := by
            unfold deleteFromIndex
            rw [hlook]
            simp only [if_pos hmem, if_pos hnil, hcad]
          rw [hres]
          refine ⟨hdist', ?_⟩
          intro v
          by_cases hv : v = ikey
          · subst hv
            rw [if_pos rfl, hbl, hnil,
              bucketList_lookup_none st' v (by rw [hchar v, if_pos rfl])]
          · rw [if_neg hv]
            unfold bucketList
            rw [hchar v, if_neg hv]
        · obtain ⟨st', hcas, hchar⟩ :=
            kvCompareAndSet_of_lookup st ikey list c (list.erase key) hlook
          have hres : deleteFromIndex st ikey key = (.ok (), st') := by
            unfold deleteFromIndex
            rw [hlook]
            simp only [if_pos hmem, if_neg hnil, hcas]
          rw [hres]
          refine ⟨kvCompareAndSet_distinct st st' ikey (list.erase key) c hcas hdist, ?_⟩
          intro v
          by_cases hv : v = ikey
          · subst hv
            rw [if_pos rfl, hbl,
              bucketList_lookup_some st' v (list.erase key) (c + 1)
                (by rw [hchar v, if_pos rfl])]
          · rw [if_neg hv]
            unfold bucketList
            rw [hchar v, if_neg hv]
      · have hres : deleteFromIndex st ikey key = (.ok (), st) := by
          unfold deleteFromIndex
          rw [hlook]
          simp only [if_neg hmem]
        rw [hres]
        refine ⟨hdist, ?_⟩
        intro v
        by_cases hv : v = ikey
        · subst hv
          rw [if_pos rfl, hbl, List.erase_of_not_mem hmem]
        · rw [if_neg hv]

/-- The effect of `addToIndex` on the buckets of one index keyspace: the
bucket at `indexKey` gains `key` at its end when absent, every other bucket
is untouched, and key-distinctness of the store is preserved. -/
theorem bucket_addToIndex (st : KV (List Bytes)) (ikey key : Bytes)
    (hdist : KVDistinct st) :
    KVDistinct (addToIndex st ikey key).2 ∧
    ∀ v, bucketList (addToIndex st ikey key).2 v =
      if v = ikey then
        (if key ∈ bucketList st ikey then bucketList st ikey
         else bucketList st ikey ++ [key])
      else bucketList st v := by
  cases hlook : kvLookup st ikey with
  | none =>
      have hbl : bucketList st ikey = [] := bucketList_lookup_none st ikey hlook
      have hres : addToIndex st ikey key = (.ok (), kvSet st ikey [key]) := by
        unfold addToIndex
        rw [hlook]
      rw [hres]
      refine ⟨kvSet_distinct st ikey [key] hdist, ?_⟩
      intro v
      by_cases hv : v = ikey
      · subst hv
        obtain ⟨c', hc'⟩ := kvLookup_kvSet_self st v [key]
        rw [if_pos rfl, hbl, bucketList_lookup_some (kvSet st v [key]) v [key] c' hc']
        simp
      · rw [if_neg hv]
        unfold bucketList
        rw [kvLookup_kvSet_ne st ikey v [key] hv]
  | some pair =>
      obtain ⟨list, c⟩ := pair
      have hbl : bucketList st ikey = list := bucketList_lookup_some st ikey list c hlook
      by_cases hmem : key ∈ list
      · have hres : addToIndex st ikey key = (.ok (), st) := by
          unfold addToIndex
          rw [hlook]
          simp only [if_pos hmem]
        rw [hres]
        refine ⟨hdist, ?_⟩
        intro v
        by_cases hv : v = ikey
        · subst hv
          rw [if_pos rfl, hbl, if_pos hmem]
        · rw [if_neg hv]
      · obtain ⟨st', hcas, hchar⟩ :=
          kvCompareAndSet_of_lookup st ikey list c (list ++ [key]) hlook
        have hres : addToIndex st ikey key = (.ok (), st') := by
          unfold addToIndex
          rw [hlook]
          simp only [if_neg hmem, hcas]
        rw [hres]
        refine ⟨kvCompareAndSet_distinct st st' ikey (list ++ [key]) c hcas hdist, ?_⟩
        intro v
        by_cases hv : v = ikey
        · subst hv
          rw [if_pos rfl, hbl, if_neg hmem,
            bucketList_lookup_some st' v (list ++ [key]) (c + 1)
              (by rw [hchar v, if_pos rfl])]
        · rw [if_neg hv]
          unfold bucketList
          rw [hchar v, if_neg hv]

/-- The bucket of index `i` at canonical value `v` in a table state. -/
def bucketOf (t : Table) (i : String) (v : Bytes) : List Bytes :=
  bucketList (t.idx i) v

/-- The current document bytes at a primary key. -/
def docOf (t : Table) (k : Bytes) : Option Bytes :=
  (kvLookup t.data k).map Prod.fst

theorem applyEntries_nil (f : KV (List Bytes) → Bytes → Bytes → Except CErr Unit × KV (List Bytes))
    (t : Table) (key : Bytes) : applyEntries f t key [] = t := rfl

theorem applyEntries_cons (f : KV (List Bytes) → Bytes → Bytes → Except CErr Unit × KV (List Bytes))
    (t : Table) (key : Bytes) (e : diffEntry) (rest : List diffEntry) :
    applyEntries f t key (e :: rest) =
      applyEntries f
        { t with idx := fun n =>
            if n = e.indexName then (f (t.idx e.indexName) e.indexKey key).2
            else t.idx n }
        key rest := rfl

/-- Folding `deleteFromIndex` over a diff-entry list: the data keyspace is
untouched, per-index key-distinctness and bucket `Nodup` are preserved, and
`key` remains in exactly the buckets not named by an entry. -/
theorem applyEntries_delete_spec (key : Bytes) (E : List diffEntry) :
    ∀ t : Table, (∀ i, KVDistinct (t.idx i)) → (∀ i v, (bucketOf t i v).Nodup) →
    (∀ i, KVDistinct ((applyEntries deleteFromIndex t key E).idx i)) ∧
    (∀ i v, (bucketOf (applyEntries deleteFromIndex t key E) i v).Nodup) ∧
    (applyEntries deleteFromIndex t key E).data = t.data ∧
    (∀ i v k, k ∈ bucketOf (applyEntries deleteFromIndex t key E) i v ↔
      (k ∈ bucketOf t i v ∧ (k = key → (⟨i, v⟩ : diffEntry) ∉ E))) := by
  induction E with
  | nil =>
      intro t hdist hnd
      refine ⟨hdist, hnd, rfl, ?_⟩
      intro i v k
      simp [applyEntries_nil]
  | cons e rest ih =>
      intro t hdist hnd
      obtain ⟨j, w⟩ := e
      have hdel := bucket_deleteFromIndex (t.idx j) w key (hdist j)
      set t₁ : Table :=
        { t with idx := fun n =>
            if n = j then (deleteFromIndex (t.idx j) w key).2 else t.idx n } with ht₁
      have hidx₁ : ∀ i, t₁.idx i =
          if i = j then (deleteFromIndex (t.idx j) w key).2 else t.idx i := by
        intro i
        rfl
      have hdist₁ : ∀ i, KVDistinct (t₁.idx i) := by
        intro i
        rw [hidx₁ i]
        by_cases hij : i = j
        · rw [if_pos hij]
          exact hdel.1
        · rw [if_neg hij]
          exact hdist i
      have hb₁ : ∀ i v, bucketOf t₁ i v =
          if i = j ∧ v = w then (bucketOf t j w).erase key else bucketOf t i v := by
        intro i v
        unfold bucketOf
        rw [hidx₁ i]
        by_cases hij : i = j
        · rw [if_pos hij, hdel.2 v]
          by_cases hvw : v = w
          · have hcond : i = j ∧ v = w := ⟨hij, hvw⟩
            rw [if_pos hvw, if_pos hcond]
          · have hcond : ¬ (i = j ∧ v = w) := fun hh => hvw hh.2
            rw [if_neg hvw, if_neg hcond, hij]
        · have hcond : ¬ (i = j ∧ v = w) := fun hh => hij hh.1
          rw [if_neg hij, if_neg hcond]
      have hnd₁ : ∀ i v, (bucketOf t₁ i v).Nodup := by
        intro i v
        rw [hb₁ i v]
        by_cases hm : i = j ∧ v = w
        · rw [if_pos hm]
          exact List.Nodup.erase key (hnd j w)
        · rw [if_neg hm]
          exact hnd i v
      have hres : applyEntries deleteFromIndex t key (⟨j, w⟩ :: rest) =
          applyEntries deleteFromIndex t₁ key rest := rfl
      obtain ⟨rd, rn, rdata, rmem⟩ := ih t₁ hdist₁ hnd₁
      rw [hres]
      refine ⟨rd, rn, rdata.trans rfl, ?_⟩
      intro i v k
      rw [rmem i v k, hb₁ i v]
      by_cases hm : i = j ∧ v = w
      · rw [if_pos hm]
        rw [List.Nodup.mem_erase_iff (hnd j w)]
        obtain ⟨rfl, rfl⟩ := hm
        constructor
        · rintro ⟨⟨hne, hmem⟩, hrest⟩
          refine ⟨hmem, ?_⟩
          intro hk
          exact absurd hk hne
        · rintro ⟨hmem, hnotin⟩
          constructor
          · refine ⟨?_, hmem⟩
            intro hk
            exact (hnotin hk) (List.mem_cons_self _ _)
          · intro hk
            exact fun hr => (hnotin hk) (List.mem_cons_of_mem _ hr)
      · rw [if_neg hm]
        constructor
        · rintro ⟨hmem, hrest⟩
          refine ⟨hmem, ?_⟩
          intro hk
          rw [List.mem_cons]
          rintro (heq | hr)
          · exact hm (by cases heq; exact ⟨rfl, rfl⟩)
          · exact (hrest hk) hr
        · rintro ⟨hmem, hnotin⟩
          refine ⟨hmem, ?_⟩
          intro hk hr
          exact (hnotin hk) (List.mem_cons_of_mem _ hr)

/-- Folding `addToIndex` over a diff-entry list: the data keyspace is
untouched, per-index key-distinctness and bucket `Nodup` are preserved, and
`key` lands in exactly the buckets named by an entry (in addition to where
it already was). -/
theorem applyEntries_add_spec (key : Bytes) (E : List diffEntry) :
    ∀ t : Table, (∀ i, KVDistinct (t.idx i)) → (∀ i v, (bucketOf t i v).Nodup) →
    (∀ i, KVDistinct ((applyEntries addToIndex t key E).idx i)) ∧
    (∀ i v, (bucketOf (applyEntries addToIndex t key E) i v).Nodup) ∧
    (applyEntries addToIndex t key E).data = t.data ∧
    (∀ i v k, k ∈ bucketOf (applyEntries addToIndex t key E) i v ↔
      (k ∈ bucketOf t i v ∨ (k = key ∧ (⟨i, v⟩ : diffEntry) ∈ E))) := by
  induction E with
  | nil =>
      intro t hdist hnd
      refine ⟨hdist, hnd, rfl, ?_⟩
      intro i v k
      simp [applyEntries_nil]
  | cons e rest ih =>
      intro t hdist hnd
      obtain ⟨j, w⟩ := e
      have hadd := bucket_addToIndex (t.idx j) w key (hdist j)
      set t₁ : Table :=
        { t with idx := fun n =>
            if n = j then (addToIndex (t.idx j) w key).2 else t.idx n } with ht₁
      have hidx₁ : ∀ i, t₁.idx i =
          if i = j then (addToIndex (t.idx j) w key).2 else t.idx i := by
        intro i
        rfl
      have hdist₁ : ∀ i, KVDistinct (t₁.idx i) := by
        intro i
        rw [hidx₁ i]
        by_cases hij : i = j
        · rw [if_pos hij]
          exact hadd.1
        · rw [if_neg hij]
          exact hdist i
      have hb₁ : ∀ i v, bucketOf t₁ i v =
          if i = j ∧ v = w then
            (if key ∈ bucketOf t j w then bucketOf t j w else bucketOf t j w ++ [key])
          else bucketOf t i v := by
        intro i v
        unfold bucketOf
        rw [hidx₁ i]
        by_cases hij : i = j
        · rw [if_pos hij, hadd.2 v]
          by_cases hvw : v = w
          · have hcond : i = j ∧ v = w := ⟨hij, hvw⟩
            rw [if_pos hvw, if_pos hcond]
          · have hcond : ¬ (i = j ∧ v = w) := fun hh => hvw hh.2
            rw [if_neg hvw, if_neg hcond, hij]
        · have hcond : ¬ (i = j ∧ v = w) := fun hh => hij hh.1
          rw [if_neg hij, if_neg hcond]
      have hnd₁ : ∀ i v, (bucketOf t₁ i v).Nodup := by
        intro i v
        rw [hb₁ i v]
        by_cases hm : i = j ∧ v = w
        · rw [if_pos hm]
          by_cases hmem : key ∈ bucketOf t j w
          · rw [if_pos hmem]
            exact hnd j w
          · rw [if_neg hmem]
            refine List.Nodup.append (hnd j w) (List.nodup_singleton key) ?_
            intro x hx hx'
            have hxk : x = key := by simpa using hx'
            exact hmem (hxk ▸ hx)
        · rw [if_neg hm]
          exact hnd i v
      have hmem₁ : ∀ i v k, k ∈ bucketOf t₁ i v ↔
          (k ∈ bucketOf t i v ∨ (k = key ∧ i = j ∧ v = w)) := by
        intro i v k
        rw [hb₁ i v]
        by_cases hm : i = j ∧ v = w
        · rw [if_pos hm]
          obtain ⟨rfl, rfl⟩ := hm
          by_cases hmem : key ∈ bucketOf t i v
          · rw [if_pos hmem]
            constructor
            · exact fun h => Or.inl h
            · rintro (h | ⟨rfl, _⟩)
              · exact h
              · exact hmem
          · rw [if_neg hmem]
            rw [List.mem_append, List.mem_singleton]
            constructor
            · rintro (h | rfl)
              · exact Or.inl h
              · exact Or.inr ⟨rfl, rfl, rfl⟩
            · rintro (h | ⟨rfl, _⟩)
              · exact Or.inl h
              · exact Or.inr rfl
        · rw [if_neg hm]
          constructor
          · exact fun h => Or.inl h
          · rintro (h | ⟨rfl, hm'⟩)
            · exact h
            · exact absurd hm' hm
      have hres : applyEntries addToIndex t key (⟨j, w⟩ :: rest) =
          applyEntries addToIndex t₁ key rest := rfl
      obtain ⟨rd, rn, rdata, rmem⟩ := ih t₁ hdist₁ hnd₁
      rw [hres]
      refine ⟨rd, rn, rdata.trans rfl, ?_⟩
      intro i v k
      rw [rmem i v k, hmem₁ i v k]
      constructor
      · rintro ((h | ⟨rfl, rfl, rfl⟩) | ⟨rfl, hr⟩)
        · exact Or.inl h
        · exact Or.inr ⟨rfl, List.mem_cons_self _ _⟩
        · exact Or.inr ⟨rfl, List.mem_cons_of_mem _ hr⟩
      · rintro (h | ⟨rfl, hmem⟩)
        · exact Or.inl (Or.inl h)
        · rcases List.mem_cons.1 hmem with heq | hr
          · cases heq
            exact Or.inl (Or.inr ⟨rfl, rfl, rfl⟩)
          · exact Or.inr ⟨rfl, hr⟩

/-! ## Diff engine lemmas -/

theorem getOneWayDiffs_nil (j : String) (b : List Bytes) :
    getOneWayDiffs j [] b = [] := rfl

theorem getOneWayDiffs_cons (j : String) (aa : Bytes) (rest b : List Bytes) :
    getOneWayDiffs j (aa :: rest) b =
      if aa ∈ b then getOneWayDiffs j rest b
      else ⟨j, aa⟩ :: getOneWayDiffs j rest b := rfl

theorem mem_getOneWayDiffs (j : String) (a b : List Bytes) (i : String) (v : Bytes) :
    (⟨i, v⟩ : diffEntry) ∈ getOneWayDiffs j a b ↔ i = j ∧ v ∈ a ∧ v ∉ b := by
  induction a with
  | nil => simp [getOneWayDiffs_nil]
  | cons aa rest ih =>
      rw [getOneWayDiffs_cons]
      by_cases hmem : aa ∈ b
      · rw [if_pos hmem, ih]
        constructor
        · rintro ⟨rfl, h2, h3⟩
          exact ⟨rfl, List.mem_cons_of_mem _ h2, h3⟩
        · rintro ⟨rfl, h2, h3⟩
          rcases List.mem_cons.1 h2 with rfl | h2'
          · exact absurd hmem h3
          · exact ⟨rfl, h2', h3⟩
      · rw [if_neg hmem]
        rw [List.mem_cons, ih]
        constructor
        · rintro (heq | ⟨rfl, h2, h3⟩)
          · cases heq
            exact ⟨rfl, List.mem_cons_self _ _, hmem⟩
          · exact ⟨rfl, List.mem_cons_of_mem _ h2, h3⟩
        · rintro ⟨rfl, h2, h3⟩
          rcases List.mem_cons.1 h2 with rfl | h2'
          · exact Or.inl rfl
          · exact Or.inr ⟨rfl, h2', h3⟩

theorem diffIndexesGo_nil (env : Env) (old new : Bytes) :
    diffIndexesGo env old new [] = ([], []) := rfl

theorem diffIndexesGo_cons (env : Env) (old new : Bytes) (i : String)
    (rest : List String) :
    diffIndexesGo env old new (i :: rest) =
      (getOneWayDiffs i (extractVals env i new) (extractVals env i old) ++
         (diffIndexesGo env old new rest).1,
       getOneWayDiffs i (extractVals env i old) (extractVals env i new) ++
         (diffIndexesGo env old new rest).2) := rfl

theorem diffIndexesGo_swap (env : Env) (a b : Bytes) (l : List String) :
    (diffIndexesGo env a b l).1 = (diffIndexesGo env b a l).2 ∧
    (diffIndexesGo env a b l).2 = (diffIndexesGo env b a l).1 := by
  induction l with
  | nil => exact ⟨rfl, rfl⟩
  | cons i rest ih =>
      rw [diffIndexesGo_cons, diffIndexesGo_cons]
      exact ⟨by rw [ih.1], by rw [ih.2]⟩

theorem mem_diffIndexesGo_fst (env : Env) (old new : Bytes) (l : List String)
    (i : String) (v : Bytes) :
    (⟨i, v⟩ : diffEntry) ∈ (diffIndexesGo env old new l).1 ↔
      i ∈ l ∧ v ∈ extractVals env i new ∧ v ∉ extractVals env i old := by
  induction l with
  | nil => simp [diffIndexesGo_nil]
  | cons j rest ih =>
      rw [diffIndexesGo_cons]
      rw [show ((getOneWayDiffs j (extractVals env j new) (extractVals env j old) ++
          (diffIndexesGo env old new rest).1,
        getOneWayDiffs j (extractVals env j old) (extractVals env j new) ++
          (diffIndexesGo env old new rest).2).1 : List diffEntry) =
        getOneWayDiffs j (extractVals env j new) (extractVals env j old) ++
          (diffIndexesGo env old new rest).1 from rfl]
      rw [List.mem_append, mem_getOneWayDiffs, ih]
      constructor
      · rintro (⟨rfl, h2, h3⟩ | ⟨h1, h2, h3⟩)
        · exact ⟨List.mem_cons_self _ _, h2, h3⟩
        · exact ⟨List.mem_cons_of_mem _ h1, h2, h3⟩
      · rintro ⟨h1, h2, h3⟩
        rcases List.mem_cons.1 h1 with rfl | h1'
        · exact Or.inl ⟨rfl, h2, h3⟩
        · exact Or.inr ⟨h1', h2, h3⟩

theorem mem_diffIndexes_fst (env : Env) (old new : Bytes) (i : String) (v : Bytes) :
    (⟨i, v⟩ : diffEntry) ∈ (diffIndexes env old new).1 ↔
      i ∈ env.indexes ∧ v ∈ extractVals env i new ∧ v ∉ extractVals env i old :=
  mem_diffIndexesGo_fst env old new env.indexes i v

theorem mem_diffIndexes_snd (env : Env) (old new : Bytes) (i : String) (v : Bytes) :
    (⟨i, v⟩ : diffEntry) ∈ (diffIndexes env old new).2 ↔
      i ∈ env.indexes ∧ v ∈ extractVals env i old ∧ v ∉ extractVals env i new := by
  unfold diffIndexes
  rw [← (diffIndexesGo_swap env new old env.indexes).1]
  exact mem_diffIndexesGo_fst env new old env.indexes i v

/-! ## The index correctness invariant -/

/-- Structural well-formedness of a table state: the primary keyspace and
every index keyspace are maps (distinct keys), and every bucket list is
duplicate-free. -/
def TableWF (t : Table) : Prop :=
  KVDistinct t.data ∧ (∀ i, KVDistinct (t.idx i)) ∧
    (∀ i v, (bucketOf t i v).Nodup)

/-- The index correctness invariant: for every declared index `i` and
primary key `k`, `k` lies in exactly the buckets whose canonical value is
extracted from `k`'s current document. -/
def IndexInv (env : Env) (t : Table) : Prop :=
  ∀ i ∈ env.indexes, ∀ v k,
    k ∈ bucketOf t i v ↔ ∃ d, docOf t k = some d ∧ v ∈ extractVals env i d

theorem Set_none_def (env : Env) (t : Table) (key value : Bytes) :
    Table.Set env t key value none =
      (.ok (), updateIndex env { t with data := kvSet t.data key value } key
        (((kvLookup t.data key).map Prod.fst).getD []) value) := rfl

theorem Set_some_def (env : Env) (t : Table) (key value : Bytes) (n : Nat) :
    Table.Set env t key value (some n) =
      (if (((kvLookup t.data key).map Prod.snd).getD 0 ≠ n % 65536 : Prop) then
        (.error .counterChanged, t)
      else
        match kvCompareAndSet t.data key value (n % 65536) with
        | .error .casMismatch => (.error .counterChanged, t)
        | .ok data' =>
            (.ok (), updateIndex env { t with data := data' } key
              (((kvLookup t.data key).map Prod.fst).getD []) value)) := rfl

theorem Set_some_stale (env : Env) (t : Table) (key value : Bytes) (n : Nat)
    (h : ((kvLookup t.data key).map Prod.snd).getD 0 ≠ n % 65536) :
    Table.Set env t key value (some n) = (.error .counterChanged, t) := by
  rw [Set_some_def, if_pos h]

theorem Set_some_cas_ok (env : Env) (t : Table) (key value : Bytes) (n : Nat)
    (data' : KV Bytes)
    (hpass : ((kvLookup t.data key).map Prod.snd).getD 0 = n % 65536)
    (hcas : kvCompareAndSet t.data key value (n % 65536) = .ok data') :
    Table.Set env t key value (some n) =
      (.ok (), updateIndex env { t with data := data' } key
        (((kvLookup t.data key).map Prod.fst).getD []) value) := by
  rw [Set_some_def, if_neg (fun hh => hh hpass), hcas]

theorem Set_some_cas_err (env : Env) (t : Table) (key value : Bytes) (n : Nat)
    (hpass : ((kvLookup t.data key).map Prod.snd).getD 0 = n % 65536)
    (hcas : kvCompareAndSet t.data key value (n % 65536) = .error .casMismatch) :
    Table.Set env t key value (some n) = (.error .counterChanged, t) := by
  rw [Set_some_def, if_neg (fun hh => hh hpass), hcas]

theorem Delete_absent_def (env : Env) (t : Table) (key : Bytes)
    (copt : Option Nat) (h : kvLookup t.data key = none) :
    Table.Delete env t key copt = (.ok (), t) := by
  unfold Table.Delete
  rw [h]

theorem Delete_some_none_def (env : Env) (t : Table) (key d : Bytes) (c : Nat)
    (h : kvLookup t.data key = some (d, c)) :
    Table.Delete env t key none =
      (.ok (), updateIndex env { t with data := kvDelete t.data key } key d []) := by
  unfold Table.Delete
  rw [h]

theorem Delete_some_stale (env : Env) (t : Table) (key d : Bytes) (c n : Nat)
    (h : kvLookup t.data key = some (d, c)) (hne : c ≠ n) :
    Table.Delete env t key (some n) = (.error .counterChanged, t) := by
  unfold Table.Delete
  rw [h]
  simp only [if_pos hne]

theorem Delete_some_cad_ok (env : Env) (t : Table) (key d : Bytes) (c n : Nat)
    (data' : KV Bytes) (h : kvLookup t.data key = some (d, c)) (hc : c = n)
    (hcad : kvCompareAndDelete t.data key (n % 65536) = .ok data') :
    Table.Delete env t key (some n) =
      (.ok (), updateIndex env { t with data := data' } key d []) := by
  unfold Table.Delete
  rw [h]
  have hcc : ¬ (c ≠ n) := fun hh => hh hc
  simp only [hcad, if_neg hcc]

theorem Delete_some_cad_err (env : Env) (t : Table) (key d : Bytes) (c n : Nat)
    (h : kvLookup t.data key = some (d, c)) (hc : c = n)
    (hcad : kvCompareAndDelete t.data key (n % 65536) = .error .casMismatch) :
    Table.Delete env t key (some n) = (.error .counterChanged, t) := by
  unfold Table.Delete
  rw [h]
  have hcc : ¬ (c ≠ n) := fun hh => hh hc
  simp only [hcad, if_neg hcc]

/-- The central preservation lemma: after a primary mutation at `key`
(already recorded in `t₁`, which keeps `t`'s index stores), running
`updateIndex` with a faithful old/new pair restores the index invariant. -/
theorem updateIndex_inv (env : Env) (t t₁ : Table) (key oldArg newArg : Bytes)
    (hidx : t₁.idx = t.idx)
    (hWFidx : ∀ i, KVDistinct (t.idx i))
    (hnd : ∀ i v, (bucketOf t i v).Nodup)
    (hinv : IndexInv env t)
    (hold : ∀ i v, v ∈ extractVals env i oldArg ↔
      ∃ d, docOf t key = some d ∧ v ∈ extractVals env i d)
    (hnew : ∀ i v, v ∈ extractVals env i newArg ↔
      ∃ d, docOf t₁ key = some d ∧ v ∈ extractVals env i d)
    (hother : ∀ k, k ≠ key → docOf t₁ k = docOf t k) :
    IndexInv env (updateIndex env t₁ key oldArg newArg) ∧
    (∀ i, KVDistinct ((updateIndex env t₁ key oldArg newArg).idx i)) ∧
    (∀ i v, (bucketOf (updateIndex env t₁ key oldArg newArg) i v).Nodup) ∧
    (updateIndex env t₁ key oldArg newArg).data = t₁.data := by
  have hdist₁ : ∀ i, KVDistinct (t₁.idx i) := by
    intro i
    rw [hidx]
    exact hWFidx i
  have hb₁ : ∀ i v, bucketOf t₁ i v = bucketOf t i v := by
    intro i v
    unfold bucketOf
    rw [hidx]
  have hnd₁ : ∀ i v, (bucketOf t₁ i v).Nodup := by
    intro i v
    rw [hb₁]
    exact hnd i v
  have hres : updateIndex env t₁ key oldArg newArg =
      applyEntries addToIndex
        (applyEntries deleteFromIndex t₁ key (diffIndexes env oldArg newArg).2)
        key (diffIndexes env oldArg newArg).1 := rfl
  obtain ⟨d2dist, d2nd, d2data, d2mem⟩ :=
    applyEntries_delete_spec key (diffIndexes env oldArg newArg).2 t₁ hdist₁ hnd₁
  obtain ⟨fdist, fnd, fdata, fmem⟩ :=
    applyEntries_add_spec key (diffIndexes env oldArg newArg).1
      (applyEntries deleteFromIndex t₁ key (diffIndexes env oldArg newArg).2)
      d2dist d2nd
  rw [hres]
  refine ⟨?_, fdist, fnd, fdata.trans d2data⟩
  intro i hi v k
  have hdocf : docOf (applyEntries addToIndex
      (applyEntries deleteFromIndex t₁ key (diffIndexes env oldArg newArg).2)
      key (diffIndexes env oldArg newArg).1) k = docOf t₁ k := by
    unfold docOf
    rw [fdata.trans d2data]
  rw [fmem i v k, d2mem i v k, hb₁ i v, hdocf]
  by_cases hk : k = key
  · subst hk
    have h1 : k ∈ bucketOf t i v ↔ v ∈ extractVals env i oldArg :=
      (hinv i hi v k).trans (hold i v).symm
    have h2 : (∃ d, docOf t₁ k = some d ∧ v ∈ extractVals env i d) ↔
        v ∈ extractVals env i newArg := (hnew i v).symm
    have h3 : (⟨i, v⟩ : diffEntry) ∈ (diffIndexes env oldArg newArg).2 ↔
        i ∈ env.indexes ∧ v ∈ extractVals env i oldArg ∧
          v ∉ extractVals env i newArg := mem_diffIndexes_snd env oldArg newArg i v
    have h4 : (⟨i, v⟩ : diffEntry) ∈ (diffIndexes env oldArg newArg).1 ↔
        i ∈ env.indexes ∧ v ∈ extractVals env i newArg ∧
          v ∉ extractVals env i oldArg := mem_diffIndexes_fst env oldArg newArg i v
    rw [h2, h3, h4, h1]
    by_cases hO : v ∈ extractVals env i oldArg <;>
      by_cases hN : v ∈ extractVals env i newArg <;>
        simp [hO, hN, hi]
  · have h1 : k ∈ bucketOf t i v ↔ ∃ d, docOf t k = some d ∧ v ∈ extractVals env i d :=
      hinv i hi v k
    rw [hother k hk, h1]
    constructor
    · rintro (⟨hm, _⟩ | ⟨hkk, _⟩)
      · exact hm
      · exact absurd hkk hk
    · intro hm
      exact Or.inl ⟨hm, fun hkk => absurd hkk hk⟩

theorem after_update (env : Env) (t : Table) (key oldArg newArg : Bytes)
    (data₁ : KV Bytes) (hWF : TableWF t) (hinv : IndexInv env t)
    (hdist₁ : KVDistinct data₁)
    (hold : ∀ i v, v ∈ extractVals env i oldArg ↔
      ∃ d, docOf t key = some d ∧ v ∈ extractVals env i d)
    (hnew : ∀ i v, v ∈ extractVals env i newArg ↔
      ∃ d, docOf { t with data := data₁ } key = some d ∧ v ∈ extractVals env i d)
    (hother : ∀ k, k ≠ key → docOf { t with data := data₁ } k = docOf t k) :
    TableWF (updateIndex env { t with data := data₁ } key oldArg newArg) ∧
    IndexInv env (updateIndex env { t with data := data₁ } key oldArg newArg) := by
  obtain ⟨hd, hi, hn⟩ := hWF
  obtain ⟨inv', idist', ind', hdata'⟩ :=
    updateIndex_inv env t { t with data := data₁ } key oldArg newArg rfl hi hn
      hinv hold hnew hother
  refine ⟨⟨?_, idist', ind'⟩, inv'⟩
  rw [hdata']
  exact hdist₁

theorem docOf_mk (t : Table) (data₁ : KV Bytes) (k : Bytes) :
    docOf { t with data := data₁ } k = (kvLookup data₁ k).map Prod.fst := rfl

theorem WF_inv_Set (env : Env) (t : Table) (key value : Bytes)
    (counter : Option Nat) (hWF : TableWF t) (hinv : IndexInv env t) :
    TableWF (Table.Set env t key value counter).2 ∧
    IndexInv env (Table.Set env t key value counter).2 := by
  have hold : ∀ i v,
      v ∈ extractVals env i (((kvLookup t.data key).map Prod.fst).getD []) ↔
      ∃ d, docOf t key = some d ∧ v ∈ extractVals env i d := by
    intro i v
    cases hlook : kvLookup t.data key with
    | none =>
        have hdoc : docOf t key = none := by
          unfold docOf
          rw [hlook]
          rfl
        show v ∈ extractVals env i [] ↔
          ∃ d, docOf t key = some d ∧ v ∈ extractVals env i d
        rw [extractVals_nil, hdoc]
        simp
    | some pair =>
        obtain ⟨d, c⟩ := pair
        have hdoc : docOf t key = some d := by
          unfold docOf
          rw [hlook]
          rfl
        show v ∈ extractVals env i d ↔
          ∃ d', docOf t key = some d' ∧ v ∈ extractVals env i d'
        rw [hdoc]
        constructor
        · intro hv
          exact ⟨d, rfl, hv⟩
        · rintro ⟨d', hd', hv⟩
          injection hd' with hd'
          subst hd'
          exact hv
  cases counter with
  | none =>
      rw [Set_none_def]
      obtain ⟨c', hc'⟩ := kvLookup_kvSet_self t.data key value
      refine after_update env t key _ value (kvSet t.data key value) hWF hinv
        (kvSet_distinct t.data key value hWF.1) hold ?_ ?_
      · intro i v
        rw [docOf_mk, hc']
        constructor
        · intro hv
          exact ⟨value, rfl, hv⟩
        · rintro ⟨d', hd', hv⟩
          injection hd' with hd'
          subst hd'
          exact hv
      · intro k hk
        rw [docOf_mk]
        unfold docOf
        rw [kvLookup_kvSet_ne t.data key k value hk]
  | some n =>
      cases hlook : kvLookup t.data key with
      | none =>
          by_cases h0 : (0 : Nat) = n % 65536
          · have hpass : ((kvLookup t.data key).map Prod.snd).getD 0 = n % 65536 := by
              rw [hlook]
              exact h0
            have hcas := kvCompareAndSet_absent t.data key value (n % 65536) hlook
            rw [Set_some_cas_err env t key value n hpass hcas]
            exact ⟨hWF, hinv⟩
          · have hst : ((kvLookup t.data key).map Prod.snd).getD 0 ≠ n % 65536 := by
              rw [hlook]
              exact h0
            rw [Set_some_stale env t key value n hst]
            exact ⟨hWF, hinv⟩
      | some pair =>
          obtain ⟨d, c⟩ := pair
          by_cases hc : c = n % 65536
          · have hpass : ((kvLookup t.data key).map Prod.snd).getD 0 = n % 65536 := by
              rw [hlook]
              exact hc
            obtain ⟨st', hcas, hchar⟩ :=
              kvCompareAndSet_of_lookup t.data key d c value hlook
            rw [hc] at hcas
            rw [Set_some_cas_ok env t key value n st' hpass hcas]
            refine after_update env t key _ value st' hWF hinv
              (kvCompareAndSet_distinct t.data st' key value (n % 65536) hcas hWF.1)
              hold ?_ ?_
            · intro i v
              rw [docOf_mk, hchar key, if_pos rfl]
              constructor
              · intro hv
                exact ⟨value, rfl, hv⟩
              · rintro ⟨d', hd', hv⟩
                injection hd' with hd'
                subst hd'
                exact hv
            · intro k hk
              rw [docOf_mk, hchar k, if_neg hk]
              rfl
          · have hst : ((kvLookup t.data key).map Prod.snd).getD 0 ≠ n % 65536 := by
              rw [hlook]
              exact hc
            rw [Set_some_stale env t key value n hst]
            exact ⟨hWF, hinv⟩

theorem WF_inv_Delete (env : Env) (t : Table) (key : Bytes)
    (counter : Option Nat) (hWF : TableWF t) (hinv : IndexInv env t) :
    TableWF (Table.Delete env t key counter).2 ∧
    IndexInv env (Table.Delete env t key counter).2 := by
  cases hlook : kvLookup t.data key with
  | none =>
      rw [Delete_absent_def env t key counter hlook]
      exact ⟨hWF, hinv⟩
  | some pair =>
      obtain ⟨d, c⟩ := pair
      have hold : ∀ i v, v ∈ extractVals env i d ↔
          ∃ d', docOf t key = some d' ∧ v ∈ extractVals env i d' := by
        intro i v
        have hdoc : docOf t key = some d := by
          unfold docOf
          rw [hlook]
          rfl
        rw [hdoc]
        constructor
        · intro hv
          exact ⟨d, rfl, hv⟩
        · rintro ⟨d', hd', hv⟩
          injection hd' with hd'
          rw [hd']
          exact hv
      cases counter with
      | none =>
          rw [Delete_some_none_def env t key d c hlook]
          refine after_update env t key d [] (kvDelete t.data key) hWF hinv
            (kvDelete_distinct t.data key hWF.1) hold ?_ ?_
          · intro i v
            rw [extractVals_nil, docOf_mk,
              kvLookup_kvDelete t.data key key hWF.1, if_pos rfl]
            simp
          · intro k hk
            rw [docOf_mk, kvLookup_kvDelete t.data key k hWF.1, if_neg hk]
            rfl
      | some n =>
          by_cases hc : c = n
          · by_cases hmod : n % 65536 = c
            · obtain ⟨st', hcad, hdist', hchar⟩ :=
                kvCompareAndDelete_of_lookup t.data key d c hlook hWF.1
              rw [← hmod] at hcad
              rw [Delete_some_cad_ok env t key d c n st' hlook hc hcad]
              refine after_update env t key d [] st' hWF hinv hdist' hold ?_ ?_
              · intro i v
                rw [extractVals_nil, docOf_mk, hchar key, if_pos rfl]
                simp
              · intro k hk
                rw [docOf_mk, hchar k, if_neg hk]
                rfl
            · have hcad := kvCompareAndDelete_wrong t.data key d c (n % 65536)
                hlook (fun hh => hmod hh.symm)
              rw [Delete_some_cad_err env t key d c n hlook hc hcad]
              exact ⟨hWF, hinv⟩
          · rw [Delete_some_stale env t key d c n hlook hc]
            exact ⟨hWF, hinv⟩

/-- One primitive operation of the claim's failure-free sequences: a Set or
Delete, each with or without a supplied expected counter. -/
inductive Op
  | set (key value : Bytes)
  | setc (key value : Bytes) (counter : Nat)
  | del (key : Bytes)
  | delc (key : Bytes) (counter : Nat)

/-- Run one operation against a table state. -/
def runOp (env : Env) (t : Table) : Op → Except CErr Unit × Table
  | .set k v => Table.Set env t k v none
  | .setc k v c => Table.Set env t k v (some c)
  | .del k => Table.Delete env t k none
  | .delc k c => Table.Delete env t k (some c)

/-- Run a sequence of operations from a starting state. -/
def runOps (env : Env) (t : Table) : List Op → Table
  | [] => t
  | op :: rest => runOps env (runOp env t op).2 rest

theorem WF_inv_runOp (env : Env) (t : Table) (op : Op)
    (hWF : TableWF t) (hinv : IndexInv env t) :
    TableWF (runOp env t op).2 ∧ IndexInv env (runOp env t op).2 := by
  cases op with
  | set k v => exact WF_inv_Set env t k v none hWF hinv
  | setc k v c => exact WF_inv_Set env t k v (some c) hWF hinv
  | del k => exact WF_inv_Delete env t k none hWF hinv
  | delc k c => exact WF_inv_Delete env t k (some c) hWF hinv

theorem WF_inv_runOps (env : Env) (ops : List Op) :
    ∀ t : Table, TableWF t → IndexInv env t →
    TableWF (runOps env t ops) ∧ IndexInv env (runOps env t ops) := by
  induction ops with
  | nil => exact fun t hWF hinv => ⟨hWF, hinv⟩
  | cons op rest ih =>
      intro t hWF hinv
      obtain ⟨hWF', hinv'⟩ := WF_inv_runOp env t op hWF hinv
      exact ih (runOp env t op).2 hWF' hinv'

theorem TableWF_empty : TableWF Table.empty := by
  refine ⟨List.nodup_nil, fun i => List.nodup_nil, fun i v => ?_⟩
  simp [bucketOf, bucketList, Table.empty, kvLookup]

theorem IndexInv_empty (env : Env) : IndexInv env Table.empty := by
  intro i hi v k
  simp [bucketOf, bucketList, docOf, Table.empty, kvLookup]

theorem count_getOneWayDiffs (j : String) (a b : List Bytes) (i : String)
    (v : Bytes) :
    (getOneWayDiffs j a b).count ⟨i, v⟩ =
      if i = j ∧ v ∉ b then a.count v else 0 := by
  induction a with
  | nil =>
      rw [getOneWayDiffs_nil]
      by_cases hcond : i = j ∧ v ∉ b
      · rw [if_pos hcond, List.count_nil, List.count_nil]
      · rw [if_neg hcond, List.count_nil]
  | cons aa rest ih =>
      rw [getOneWayDiffs_cons]
      by_cases hmem : aa ∈ b
      · rw [if_pos hmem, ih]
        by_cases hcond : i = j ∧ v ∉ b
        · have hvb : v ≠ aa := by
            intro hh
            exact hcond.2 (by rw [hh]; exact hmem)
          rw [if_pos hcond, if_pos hcond, List.count_cons_of_ne hvb]
        · rw [if_neg hcond, if_neg hcond]
      · rw [if_neg hmem, List.count_cons, ih]
        by_cases hcond : i = j ∧ v ∉ b
        · rw [if_pos hcond]
          by_cases hva : v = aa
          · have he : (⟨j, aa⟩ : diffEntry) = ⟨i, v⟩ := by
              rw [hcond.1, hva]
            have hbe : ((⟨j, aa⟩ : diffEntry) == ⟨i, v⟩) = true := by
              rw [he]
              exact beq_self_eq_true _
            have hbe2 : (aa == v) = true := beq_iff_eq.2 hva.symm
            rw [List.count_cons, if_pos hbe, if_pos hbe2, if_pos hcond]
          · have hne : ¬ (((⟨j, aa⟩ : diffEntry) == ⟨i, v⟩) = true) := by
              intro hb
              injection beq_iff_eq.1 hb with h1 h2
              exact hva h2.symm
            have hne2 : ¬ ((aa == v) = true) := by
              intro hb
              exact hva (beq_iff_eq.1 hb).symm
            rw [List.count_cons, if_neg hne, if_neg hne2, Nat.add_zero,
              if_pos hcond]
        · rw [if_neg hcond]
          have hne : ¬ (((⟨j, aa⟩ : diffEntry) == ⟨i, v⟩) = true) := by
            intro hb
            injection beq_iff_eq.1 hb with h1 h2
            exact hcond ⟨h1.symm, fun hv => hmem (h2 ▸ hv)⟩
          rw [if_neg hne, Nat.add_zero, if_neg hcond]

theorem count_diffIndexesGo_fst (env : Env) (old new : Bytes)
    (l : List String) (hnd : l.Nodup) (i : String) (v : Bytes) :
    ((diffIndexesGo env old new l).1.count ⟨i, v⟩ =
      if i ∈ l ∧ v ∉ extractVals env i old then
        (extractVals env i new).count v
      else 0) := by
  induction l with
  | nil =>
      rw [diffIndexesGo_nil]
      have hni : ¬ (i ∈ ([] : List String) ∧ v ∉ extractVals env i old) :=
        fun hh => List.not_mem_nil i hh.1
      rw [if_neg hni, List.count_nil]
  | cons j rest ih =>
      obtain ⟨hj, hrest⟩ := List.nodup_cons.1 hnd
      rw [diffIndexesGo_cons]
      rw [show ((getOneWayDiffs j (extractVals env j new) (extractVals env j old) ++
          (diffIndexesGo env old new rest).1,
        getOneWayDiffs j (extractVals env j old) (extractVals env j new) ++
          (diffIndexesGo env old new rest).2).1 : List diffEntry) =
        getOneWayDiffs j (extractVals env j new) (extractVals env j old) ++
          (diffIndexesGo env old new rest).1 from rfl]
      rw [List.count_append, count_getOneWayDiffs, ih hrest]
      by_cases hij : i = j
      · subst hij
        have hnrest : ¬ (i ∈ rest ∧ v ∉ extractVals env i old) :=
          fun hh => hj hh.1
        rw [if_neg hnrest]
        by_cases hvo : v ∉ extractVals env i old
        · have h1 : (i = i ∧ v ∉ extractVals env i old) := ⟨rfl, hvo⟩
          have h2 : (i ∈ i :: rest ∧ v ∉ extractVals env i old) :=
            ⟨List.mem_cons_self _ _, hvo⟩
          rw [if_pos h1, if_pos h2, Nat.add_zero]
        · have h1 : ¬ (i = i ∧ v ∉ extractVals env i old) := fun hh => hvo hh.2
          have h2 : ¬ (i ∈ i :: rest ∧ v ∉ extractVals env i old) :=
            fun hh => hvo hh.2
          rw [if_neg h1, if_neg h2]
      · have h1 : ¬ (i = j ∧ v ∉ extractVals env j old) := fun hh => hij hh.1
        rw [if_neg h1, Nat.zero_add]
        by_cases hr : i ∈ rest ∧ v ∉ extractVals env i old
        · have h2 : (i ∈ j :: rest ∧ v ∉ extractVals env i old) :=
            ⟨List.mem_cons_of_mem _ hr.1, hr.2⟩
          rw [if_pos hr, if_pos h2]
        · have h2 : ¬ (i ∈ j :: rest ∧ v ∉ extractVals env i old) := by
            intro hh
            rcases List.mem_cons.1 hh.1 with rfl | hmem
            · exact hij rfl
            · exact hr ⟨hmem, hh.2⟩
          rw [if_neg hr, if_neg h2]

/-! ## Concrete instances used by witnesses and counterexamples -/

/-- A table environment with no declared indexes. -/
def envNone : Env := ⟨[], fun _ _ => none, id⟩

/-- A one-document table: key [107] holds value [1] at counter 1 (the state
after one successful Set on an empty table). -/
def tOne : Table := ⟨[([107], [1], 1)], fun _ => []⟩

/-- One index "t" whose extraction yields the canonical value [7] twice
from document [1] and nothing from document [2]. -/
def envDup : Env :=
  ⟨["t"], fun _ b => if b = [1] then some [[7], [7]] else some [], id⟩

/-- One index "tag": document [1] yields tag values [10] and [11], document
[2] yields [11] and [12]. -/
def envTag : Env :=
  ⟨["tag"],
   fun n b =>
     if n = "tag" then
       if b = [1] then some [[10], [11]]
       else if b = [2] then some [[11], [12]] else none
     else none,
   id⟩

/-- The five-document table on keys a..e used by the range-bounds claim. -/
def tFive : Table :=
  ⟨[([97], [97], 1), ([98], [98], 2), ([99], [99], 3),
    ([100], [100], 4), ([101], [101], 5)], fun _ => []⟩

/-- A well-shaped Update handler whose modifier always aborts. -/
def hAbort : HandlerShape :=
  ⟨true, 1, 2, true, fun b => (b, some (.abortErr 3))⟩

/-- A malformed Update handler: a function of two arguments. -/
def hTwoIn : HandlerShape := ⟨true, 2, 2, true, fun b => (b, none)⟩

/-! ## The claims -/

/-- Claim C1: after any finite sequence of Set and Delete operations
starting from the empty table, for every declared index and every primary
key `k`, `k` appears in exactly the buckets whose index key is a canonical
byte form of a value extracted from `k`'s current document at that index's
field path — in no bucket for a value the current document does not yield,
and in every bucket for a value it does yield. -/
theorem c1_index_invariant (env : Env) (ops : List Op) :
    ∀ i ∈ env.indexes, ∀ v k,
      k ∈ bucketOf (runOps env Table.empty ops) i v ↔
      ∃ d, docOf (runOps env Table.empty ops) k = some d ∧
        v ∈ extractVals env i d :=
  (WF_inv_runOps env ops Table.empty TableWF_empty (IndexInv_empty env)).2

/-- Witness for C1 at a concrete run: insert document [1] at key [120],
then update it to [2]; the invariant instance for index "tag" at value [12]
and key [120] holds. -/
theorem c1_index_invariant_witness :
    "tag" ∈ envTag.indexes ∧
    (([120] : Bytes) ∈ bucketOf (runOps envTag Table.empty
        [.set [120] [1], .set [120] [2]]) "tag" [12] ↔
      ∃ d, docOf (runOps envTag Table.empty
          [.set [120] [1], .set [120] [2]]) [120] = some d ∧
        ([12] : Bytes) ∈ extractVals envTag "tag" d) :=
  ⟨List.mem_cons_self "tag" [],
   c1_index_invariant envTag [.set [120] [1], .set [120] [2]] "tag"
     (List.mem_cons_self "tag" []) [12] [120]⟩

/-- Claim C2 counterexample: key [107] holds a document with live counter
1; the supplied expected counter 65537 differs from the live counter, yet
`Set` succeeds and replaces the stored value, because `table.go` truncates
the supplied counter to 16 bits (`uint16(counter[0])`) before comparing and
before the CAS. -/
theorem c2_counterexample :
    kvLookup tOne.data [107] = some ([1], 1) ∧ (65537 : Nat) ≠ 1 ∧
    (Table.Set envNone tOne [107] [2] (some 65537)).1 = .ok () ∧
    kvLookup (Table.Set envNone tOne [107] [2] (some 65537)).2.data [107] =
      some ([2], 2) :=
  ⟨rfl, by decide, rfl, rfl⟩

/-- Claim C2 (amended): with a document at `key` holding live counter `c`,
`Set` with supplied counter `n` fails with `ErrCounterChanged` and leaves
the table unchanged whenever `n` is incongruent to `c` modulo 2^16 (the
code compares only the low 16 bits of the supplied counter), and `Delete`
with supplied counter `m` fails with `ErrCounterChanged` and leaves the
table unchanged whenever `m` differs from `c` as an integer. -/
theorem c2_stale_counter_amended (env : Env) (t : Table) (key d value : Bytes)
    (c n m : Nat) (h : kvLookup t.data key = some (d, c)) :
    (n % 65536 ≠ c % 65536 →
      Table.Set env t key value (some n) = (.error .counterChanged, t)) ∧
    (m ≠ c →
      Table.Delete env t key (some m) = (.error .counterChanged, t)) := by
  constructor
  · intro hmod
    refine Set_some_stale env t key value n ?_
    rw [h]
    show c ≠ n % 65536
    omega
  · intro hne
    exact Delete_some_stale env t key d c m h (fun hh => hne hh.symm)

/-- Witness for the amended C2 at the one-document table. -/
theorem c2_stale_counter_amended_witness :
    kvLookup tOne.data [107] = some ([1], 1) ∧
    (5 % 65536 ≠ 1 % 65536) ∧ ((7 : Nat) ≠ 1) ∧
    Table.Set envNone tOne [107] [9] (some 5) = (.error .counterChanged, tOne) ∧
    Table.Delete envNone tOne [107] (some 7) = (.error .counterChanged, tOne) :=
  ⟨rfl, by decide, by decide,
   (c2_stale_counter_amended envNone tOne [107] [1] [9] 1 5 7 rfl).1 (by decide),
   (c2_stale_counter_amended envNone tOne [107] [1] [9] 1 5 7 rfl).2 (by decide)⟩

/-- Claim C3 counterexample: with one declared index "t", old bytes [2]
extracting nothing and new bytes [1] extracting the canonical value [7]
twice, `diffIndexes` emits two addition entries for the same (index, value)
pair — duplicate occurrences within one extracted sequence are not
collapsed to one entry. -/
theorem c3_counterexample :
    (diffIndexes envDup [2] [1]).1.count ⟨"t", [7]⟩ = 2 ∧
    ¬ ((diffIndexes envDup [2] [1]).1.count ⟨"t", [7]⟩ ≤ 1) :=
  ⟨rfl, by decide⟩

/-- Claim C3 (amended): duplicates within the compared-against sequence
never create entries, but each occurrence of a value in the source sequence
that is absent from the other sequence yields its own entry: for distinct
declared index names, the number of addition entries for (i, v) equals the
number of occurrences of v in the new extraction when v is absent from the
old extraction (0 otherwise), and symmetrically for removals.  Downstream
application is idempotent, so the set of affected (index, value) pairs is
unchanged by the duplication. -/
theorem c3_duplicates_amended (env : Env) (hnd : env.indexes.Nodup)
    (old new : Bytes) (i : String) (v : Bytes) :
    ((diffIndexes env old new).1.count ⟨i, v⟩ =
      if i ∈ env.indexes ∧ v ∉ extractVals env i old then
        (extractVals env i new).count v else 0) ∧
    ((diffIndexes env old new).2.count ⟨i, v⟩ =
      if i ∈ env.indexes ∧ v ∉ extractVals env i new then
        (extractVals env i old).count v else 0) := by
  constructor
  · exact count_diffIndexesGo_fst env old new env.indexes hnd i v
  · have hswap := (diffIndexesGo_swap env old new env.indexes).2
    unfold diffIndexes
    rw [hswap]
    exact count_diffIndexesGo_fst env new old env.indexes hnd i v

/-- Witness for the amended C3 at the duplicate-extraction environment. -/
theorem c3_duplicates_amended_witness :
    envDup.indexes.Nodup ∧
    ((diffIndexes envDup [2] [1]).1.count ⟨"t", [7]⟩ =
      if "t" ∈ envDup.indexes ∧ ([7] : Bytes) ∉ extractVals envDup "t" [2] then
        (extractVals envDup "t" [1]).count [7] else 0) :=
  ⟨by decide, (c3_duplicates_amended envDup (by decide) [2] [1] "t" [7]).1⟩

/-- Claim C4: for all byte payloads A and B and any fixed set of declared
indexes, the additions of diffIndexes(A, B) equal the removals of
diffIndexes(B, A), and the removals of diffIndexes(A, B) equal the
additions of diffIndexes(B, A). -/
theorem c4_diff_symmetry (env : Env) (a b : Bytes) :
    (diffIndexes env a b).1 = (diffIndexes env b a).2 ∧
    (diffIndexes env a b).2 = (diffIndexes env b a).1 :=
  diffIndexesGo_swap env a b env.indexes

/-- Claim C5: Set on an absent key with any supplied expected counter fails
with ErrCounterChanged and leaves the table unchanged — a counter with
nonzero low 16 bits is rejected by the explicit comparison against the
absent item's counter 0, and a counter truncating to 0 is rejected by the
engine's CAS on a missing key. -/
theorem c5_set_absent_counter (env : Env) (t : Table) (key value : Bytes)
    (n : Nat) (h : kvLookup t.data key = none) :
    Table.Set env t key value (some n) = (.error .counterChanged, t) := by
  by_cases h0 : (0 : Nat) = n % 65536
  · refine Set_some_cas_err env t key value n ?_
      (kvCompareAndSet_absent t.data key value (n % 65536) h)
    rw [h]
    exact h0
  · refine Set_some_stale env t key value n ?_
    rw [h]
    exact h0

/-- Witness for C5: the empty table rejects counters 0 and 7 alike on an
absent key. -/
theorem c5_set_absent_counter_witness :
    kvLookup Table.empty.data [5] = none ∧
    Table.Set envNone Table.empty [5] [1] (some 0) =
      (.error .counterChanged, Table.empty) ∧
    Table.Set envNone Table.empty [5] [1] (some 7) =
      (.error .counterChanged, Table.empty) :=
  ⟨rfl, c5_set_absent_counter envNone Table.empty [5] [1] 0 rfl,
   c5_set_absent_counter envNone Table.empty [5] [1] 7 rfl⟩

/-- Claim C6: when the key holds a document and the modifier returns a
non-nil abort error `e`, Update returns exactly that error object and
performs no write — the table state is unchanged. -/
theorem c6_update_abort (env : Env) (t : Table) (key : Bytes)
    (h : HandlerShape) (d : Bytes) (c : Nat) (d' : Bytes) (e : CErr)
    (fuel : Nat) (hfn : h.isFunc = true) (hin : h.numIn = 1)
    (hout : h.numOut = 2) (herr : h.errOut = true)
    (hdoc : kvLookup t.data key = some (d, c))
    (habort : h.fn d = (d', some e)) :
    Table.Update env t key h (fuel + 1) = some (.error e, t) := by
  have hget : t.Get key = .ok (d, c) := by
    unfold Table.Get
    rw [hdoc]
  unfold Table.Update
  rw [hfn, hin, hout, herr]
  rw [if_neg (by decide : ¬ (true = false)),
    if_neg (by decide : ¬ ((1 : Nat) ≠ 1)),
    if_neg (by decide : ¬ ((2 : Nat) ≠ 2)),
    if_neg (by decide : ¬ (true = false))]
  unfold updateLoop
  rw [hget]
  simp only [habort]

/-- Witness for C6: a well-shaped aborting handler at the one-document
table. -/
theorem c6_update_abort_witness :
    hAbort.isFunc = true ∧ hAbort.numIn = 1 ∧ hAbort.numOut = 2 ∧
    hAbort.errOut = true ∧ kvLookup tOne.data [107] = some ([1], 1) ∧
    hAbort.fn [1] = ([1], some (.abortErr 3)) ∧
    Table.Update envNone tOne [107] hAbort 1 = some (.error (.abortErr 3), tOne) :=
  ⟨rfl, rfl, rfl, rfl, rfl, rfl,
   c6_update_abort envNone tOne [107] hAbort [1] 1 [1] (.abortErr 3) 0
     rfl rfl rfl rfl rfl rfl⟩

/-- Claim C7: on a table holding exactly keys a..e, Between("b","d") yields
exactly [b, c, d] in ascending key order and then ErrEndOfRange; with
reverse it yields [d, c, b] and then ErrEndOfRange (bounds inclusive on
both ends). -/
theorem c7_between_bounds :
    rangePulls 5 (Table.Between tFive (.val [98]) (.val [100]) false) =
      [.ok ([98], [98], 2), .ok ([99], [99], 3), .ok ([100], [100], 4),
       .error .endOfRange, .error .endOfRange] ∧
    rangePulls 5 (Table.Between tFive (.val [98]) (.val [100]) true) =
      [.ok ([100], [100], 4), .ok ([99], [99], 3), .ok ([98], [98], 2),
       .error .endOfRange, .error .endOfRange] :=
  ⟨rfl, rfl⟩

/-- Claim C8: All(reverse) is exactly Between(MinBounds, MaxBounds,
reverse): the constructed range state, and hence every pulled sequence of
(key, value, counter) results, agree for every table state and reverse
flag. -/
theorem c8_all_eq_between (t : Table) (reverse : Bool) (n : Nat) :
    Table.All t reverse = Table.Between t .minB .maxB reverse ∧
    rangePulls n (Table.All t reverse) =
      rangePulls n (Table.Between t .minB .maxB reverse) :=
  ⟨rfl, rfl⟩

/-- Claim C9: deleting an absent key, with or without a supplied counter,
returns success and performs no mutation of the primary keyspace or of any
index bucket — the table state is returned unchanged. -/
theorem c9_delete_absent (env : Env) (t : Table) (key : Bytes)
    (counter : Option Nat) (h : kvLookup t.data key = none) :
    Table.Delete env t key counter = (.ok (), t) :=
  Delete_absent_def env t key counter h

/-- Witness for C9 at the empty table, with and without a counter. -/
theorem c9_delete_absent_witness :
    kvLookup Table.empty.data [5] = none ∧
    Table.Delete envNone Table.empty [5] (some 3) = (.ok (), Table.empty) ∧
    Table.Delete envNone Table.empty [5] none = (.ok (), Table.empty) :=
  ⟨rfl, c9_delete_absent envNone Table.empty [5] (some 3) rfl,
   c9_delete_absent envNone Table.empty [5] none rfl⟩

/-- Claim C10: a handler whose reflected shape is not a one-argument
function with two results whose second implements error makes Update return
a non-nil validation error with the table untouched — the loop that reads
and writes the store is never entered. -/
theorem c10_update_invalid_handler (env : Env) (t : Table) (key : Bytes)
    (h : HandlerShape) (fuel : Nat)
    (hbad : ¬ (h.isFunc = true ∧ h.numIn = 1 ∧ h.numOut = 2 ∧
      h.errOut = true)) :
    ∃ msg, Table.Update env t key h fuel =
      some (.error (.handlerErr msg), t) := by
  unfold Table.Update
  by_cases h1 : h.isFunc = false
  · exact ⟨"cete: handler must be a function", by rw [if_pos h1]⟩
  · have h1' : h.isFunc = true := by
      cases hb : h.isFunc
      · exact absurd hb h1
      · rfl
    rw [if_neg h1]
    by_cases h2 : h.numIn ≠ 1
    · exact ⟨"cete: handler must have 1 input argument", by rw [if_pos h2]⟩
    · rw [if_neg h2]
      by_cases h3 : h.numOut ≠ 2
      · exact ⟨"cete: handler must have 2 return values", by rw [if_pos h3]⟩
      · rw [if_neg h3]
        by_cases h4 : h.errOut = false
        · exact ⟨"cete: handler must have error as last return value",
            by rw [if_pos h4]⟩
        · exfalso
          have h4' : h.errOut = true := by
            cases hb : h.errOut
            · exact absurd hb h4
            · rfl
          exact hbad ⟨h1', not_not.mp h2, not_not.mp h3, h4'⟩

/-- Witness for C10: a two-argument handler is rejected with the table
unchanged. -/
theorem c10_update_invalid_handler_witness :
    (¬ (hTwoIn.isFunc = true ∧ hTwoIn.numIn = 1 ∧ hTwoIn.numOut = 2 ∧
        hTwoIn.errOut = true)) ∧
    ∃ msg, Table.Update envNone Table.empty [1] hTwoIn 5 =
      some (.error (.handlerErr msg), Table.empty) :=
  ⟨by decide,
   c10_update_invalid_handler envNone Table.empty [1] hTwoIn 5 (by decide)⟩


end Cete
